import Mathlib

/-!
Verification of the constraint-narrowing engine of `wordle-ES-solutions`
(`src/solver/WordleSolver.ts`), shallowly embedded in Lean.

Strings are modelled as `List Char`.  JavaScript string indexing `s[i]`,
which yields `undefined` out of range, is modelled as `List.get? : Option Char`;
JS `===` on such values is `Option` equality (`undefined === undefined` is
`true`, `undefined === c` is `false` for a character `c`).
-/

namespace WordleSolver

/-- A dictionary word, as a list of characters. -/
abbrev Word := List Char

/-- `isEmpty` of the source: the interchangeable "no info" marker characters.
`undefined` is handled by the `Option` wrapper `isEmptyO`. -/
def isEmptyC (c : Char) : Bool :=
  c = '_' || c = ' ' || c = '-' || c = '·'

/-- `isEmpty` lifted to possibly-undefined characters (JS `s[i]` out of range
gives `undefined`, for which the source's `isEmpty` returns `true`). -/
def isEmptyO : Option Char → Bool
  | none => true
  | some c => isEmptyC c

/-- The whitespace characters stripped by JavaScript `String.prototype.trimEnd`
(the common ones; all that matters for the engine is which characters are
removable from the end of a feedback string). -/
def jsWhitespace (c : Char) : Bool :=
  c = ' ' || c = '\t' || c = '\n' || c = '\r' || c = '\x0b' || c = '\x0c' || c = ' '

/-- JS `String.prototype.trimEnd`: drop trailing whitespace. -/
def trimEnd (s : List Char) : List Char :=
  (s.reverse.dropWhile jsWhitespace).reverse

/-- The case pairs of JS `String.prototype.toLowerCase` over the ASCII range
(the repository's dictionaries and feedback are lowercase ASCII text; letters
outside this table are modelled as case-invariant). -/
def lowerMap : List (Char × Char) :=
  [('A', 'a'), ('B', 'b'), ('C', 'c'), ('D', 'd'), ('E', 'e'), ('F', 'f'),
   ('G', 'g'), ('H', 'h'), ('I', 'i'), ('J', 'j'), ('K', 'k'), ('L', 'l'),
   ('M', 'm'), ('N', 'n'), ('O', 'o'), ('P', 'p'), ('Q', 'q'), ('R', 'r'),
   ('S', 's'), ('T', 't'), ('U', 'u'), ('V', 'v'), ('W', 'w'), ('X', 'x'),
   ('Y', 'y'), ('Z', 'z')]

/-- JS `toLowerCase` on one character. -/
def lowerChar (c : Char) : Char :=
  ((lowerMap.find? (fun p => p.1 = c)).map Prod.snd).getD c

/-- `sanitizeInput` of the source: `input.toLowerCase().trimEnd()`. -/
def sanitizeInput (s : List Char) : List Char :=
  trimEnd (s.map lowerChar)

/-- JS `String.prototype.padEnd(n, c)`: pad on the right up to length `n`. -/
def padEnd (s : List Char) (n : Nat) (c : Char) : List Char :=
  s ++ List.replicate (n - s.length) c

/-- First-occurrence deduplication with an accumulator of already-seen values:
the semantics of JS `[...new Set(xs)]`. -/
def dedupFirstAux {α : Type} [DecidableEq α] (seen : List α) : List α → List α
  | [] => []
  | x :: xs => if x ∈ seen then dedupFirstAux seen xs else x :: dedupFirstAux (x :: seen) xs

/-- JS `[...new Set(xs)]`: keep the first occurrence of every value, in order. -/
def dedupFirst {α : Type} [DecidableEq α] (l : List α) : List α :=
  dedupFirstAux [] l

/-- The `SolveParams` input record of the source. -/
structure SolveParams where
  validLetters : List Char
  notInPlaceLetters : List Char
  invalidLetters : List Char
deriving DecidableEq, Repr

/-- The exported `WordleSolverState` snapshot of the source. -/
structure SolverState where
  validLetters : List Char
  notInPlaceLetters : List (List Char)
  invalidLetters : List Char
deriving DecidableEq, Repr

/-- The mutable fields of the `WordleSolver` class. -/
@[ext]
structure Solver where
  validLetters : List Char
  notInPlaceLetters : List (List Char)
  invalidLetters : List Char
  validIndexes : List Nat
  notCompletedIndexes : List Nat
  possibleWords : List Word
  ALL_WORDS : List Word
deriving DecidableEq, Repr

/-- `getWordLength`: `this.ALL_WORDS[0].length` (the engine's fixed length `L`;
the source precondition is a non-empty dictionary). -/
def getWordLength (s : Solver) : Nat :=
  (s.ALL_WORDS.headD []).length

/-- `reset(allWords?)`: clear the accumulated feedback state and derived
indexes, optionally install a new dictionary; the cached `possibleWords`
is left untouched. -/
def reset (s : Solver) (allWords : Option (List Word)) : Solver :=
  { s with
    validLetters := []
    notInPlaceLetters := []
    invalidLetters := []
    validIndexes := []
    notCompletedIndexes := []
    ALL_WORDS := allWords.getD s.ALL_WORDS }

/-- The constructor: store the dictionary, cache it as the candidate list,
then `reset`. -/
def mkSolver (allWords : List Word) : Solver :=
  reset
    { validLetters := []
      notInPlaceLetters := []
      invalidLetters := []
      validIndexes := []
      notCompletedIndexes := []
      possibleWords := allWords
      ALL_WORDS := allWords }
    none

/-- `getPossibleWords()`. -/
def getPossibleWords (s : Solver) : List Word :=
  s.possibleWords

/-- `getState()`. -/
def getState (s : Solver) : SolverState :=
  { validLetters := s.validLetters
    notInPlaceLetters := s.notInPlaceLetters
    invalidLetters := s.invalidLetters }

/-- The character produced by one non-colliding iteration of the
`addValidLetters` merge loop: the existing letter if non-empty, else the new
letter if non-empty, else a space. -/
def mergeChar (c n : Char) : Char :=
  if !isEmptyC c then c else if !isEmptyC n then n else ' '

/-- The collision test of one iteration of the `addValidLetters` loop:
both the current and the incoming slot are non-empty and differ. -/
def collAt (cur nw : List Char) (i : Nat) : Bool :=
  !isEmptyC (cur.getD i ' ') && !isEmptyC (nw.getD i ' ') && (cur.getD i ' ' != nw.getD i ' ')

/-- The body of the `addValidLetters` loop over indexes `0, …, L-1`: on the
first collision the result is `L` copies of `'?'` (early return), otherwise
the merged string is accumulated slot by slot. -/
def addValidGo (cur nw : List Char) (L : Nat) : List Nat → List Char → List Char
  | [], acc => acc
  | i :: rest, acc =>
    if collAt cur nw i then List.replicate L '?'
    else addValidGo cur nw L rest (acc ++ [mergeChar (cur.getD i ' ') (nw.getD i ' ')])

/-- `addValidLetters`: pad both sides to length `L` with spaces and run the
merge loop. -/
def addValidLetters (s : Solver) (newValidLetters : List Char) : Solver :=
  let L := getWordLength s
  { s with
    validLetters :=
      addValidGo (padEnd s.validLetters L ' ') (padEnd newValidLetters L ' ') L
        (List.range L) [] }

/-- `addNotInPlaceLetters`: skip empty input, otherwise append the round
record and deduplicate with first-seen-order set semantics. -/
def addNotInPlaceLetters (s : Solver) (notInPlaceLetters : List Char) : Solver :=
  if notInPlaceLetters = [] then s
  else { s with notInPlaceLetters := dedupFirst (s.notInPlaceLetters ++ [notInPlaceLetters]) }

/-- `addInvalidLetters`: concatenate and deduplicate (`removeDuplicates`). -/
def addInvalidLetters (s : Solver) (invalidLetters : List Char) : Solver :=
  { s with invalidLetters := dedupFirst (s.invalidLetters ++ invalidLetters) }

/-- `initializeIndexes`: classify every index `i < L` as settled
(`validIndexes`) or unsettled (`notCompletedIndexes`) from the accumulated
confirmed letters. -/
def initializeIndexes (s : Solver) : Solver :=
  let L := getWordLength s
  { s with
    validIndexes := (List.range L).filter (fun i => !isEmptyO (s.validLetters.get? i))
    notCompletedIndexes := (List.range L).filter (fun i => isEmptyO (s.validLetters.get? i)) }

/-- `sanitizeSolveParams`. -/
def sanitizeSolveParams (p : SolveParams) : SolveParams :=
  { validLetters := sanitizeInput p.validLetters
    notInPlaceLetters := sanitizeInput p.notInPlaceLetters
    invalidLetters := sanitizeInput p.invalidLetters }

/-- `initializeNextSolve`: sanitize, merge all three feedback fields, then
recompute the derived indexes. -/
def initializeNextSolve (s : Solver) (p : SolveParams) : Solver :=
  let q := sanitizeSolveParams p
  initializeIndexes
    (addInvalidLetters
      (addNotInPlaceLetters (addValidLetters s q.validLetters) q.notInPlaceLetters)
      q.invalidLetters)

/-- Pass 1, `filterWordsWithCorrectLetters`: a word survives iff it carries
the confirmed letter at every settled index. -/
def filterWordsWithCorrectLetters (s : Solver) (words : List Word) : List Word :=
  words.filter (fun word => s.validIndexes.all (fun i => word.get? i == s.validLetters.get? i))

/-- The `wordWithoutValidLetters` loop of pass 2: the word's letters at
positions where the word differs from the accumulated confirmed letter. -/
def wordRemainderGo (v : List Char) : List Char → Nat → List Char
  | [], _ => []
  | c :: rest, i =>
    if v.get? i == some c then wordRemainderGo v rest (i + 1)
    else c :: wordRemainderGo v rest (i + 1)

/-- `wordWithoutValidLetters` for a word, from index `0`. -/
def wordRemainder (s : Solver) (word : Word) : List Char :=
  wordRemainderGo s.validLetters word 0

/-- Pass 2, `removeWordsWithInvalidLetters`: reject a word iff some absent
letter that occurs in no misplaced round record occurs in the word's
non-confirmed remainder. -/
def removeWordsWithInvalidLetters (s : Solver) (words : List Word) : List Word :=
  words.filter (fun word =>
    !(s.invalidLetters.any (fun letter =>
      if s.notInPlaceLetters.any (fun r => r.any (fun x => x == letter)) then false
      else (wordRemainder s word).any (fun x => x == letter))))

/-- Pass 3, `removeWordsWithNotInPlaceIndexes`: reject a word iff some
unsettled index carries, in some misplaced round record, the word's own
letter at that index (JS `===`, so `Option` equality). -/
def removeWordsWithNotInPlaceIndexes (s : Solver) (words : List Word) : List Word :=
  words.filter (fun word =>
    !(s.notCompletedIndexes.any (fun i =>
      s.notInPlaceLetters.any (fun r => r.get? i == word.get? i))))

/-- The inner existence test of pass 4: the record's letter occurs in the
word at some position other than `j`. -/
def existsOtherIndex (word : Word) (c : Char) (j : Nat) : Bool :=
  (List.range word.length).any (fun i => i != j && word.get? i == some c)

/-- The per-record loop of pass 4 over the record's positions `j`,
with early rejection, mirroring `removeInvalidNotInPlaceCombinations`'s
inner `for` loop. -/
def keepGo (word : Word) : List Char → Nat → Bool
  | [], _ => true
  | c :: rest, j =>
    if isEmptyC c then keepGo word rest (j + 1)
    else if word.get? j == some c then false
    else if existsOtherIndex word c j then keepGo word rest (j + 1)
    else false

/-- The filter predicate pass 4 applies for one misplaced round record. -/
def keepForRecord (word : Word) (record : List Char) : Bool :=
  keepGo word record 0

/-- Pass 4, `removeInvalidNotInPlaceCombinations`: sequentially narrow the
surviving words, once per misplaced round record. -/
def removeInvalidNotInPlaceCombinations (s : Solver) (words : List Word) : List Word :=
  s.notInPlaceLetters.foldl (fun wordsRemaining r =>
    wordsRemaining.filter (fun word => keepForRecord word r)) words

/-- The four filter passes of `solve`, reading the accumulated state. -/
def pipeline (s : Solver) : List Word :=
  removeInvalidNotInPlaceCombinations s
    (removeWordsWithNotInPlaceIndexes s
      (removeWordsWithInvalidLetters s
        (filterWordsWithCorrectLetters s s.ALL_WORDS)))

/-- `solve`: ingest the feedback, recompute indexes, run the four passes over
the full dictionary and cache (and return) the surviving candidate list. -/
def solve (s : Solver) (p : SolveParams) : Solver :=
  let t := initializeNextSolve s p
  { t with possibleWords := pipeline t }

/-- A sequence of `solve` calls. -/
def solveSeq (s : Solver) (ps : List SolveParams) : Solver :=
  ps.foldl solve s

/-- `restoreTo`: reset, replay confirmed and absent letters in one `solve`,
then replay each stored misplaced round record individually. -/
def restoreTo (s : Solver) (st : SolverState) : Solver :=
  let t := reset s none
  let t := solve t
    { validLetters := st.validLetters
      notInPlaceLetters := []
      invalidLetters := st.invalidLetters }
  st.notInPlaceLetters.foldl (fun acc r =>
    solve acc { validLetters := [], notInPlaceLetters := r, invalidLetters := [] }) t

/-- The candidate list determined by an accumulated state over a dictionary:
derive the indexes from the confirmed letters and run the four passes. -/
def computeCandidates (v : List Char) (R : List (List Char)) (a : List Char)
    (W : List Word) : List Word :=
  pipeline (initializeIndexes
    { validLetters := v
      notInPlaceLetters := R
      invalidLetters := a
      validIndexes := []
      notCompletedIndexes := []
      possibleWords := []
      ALL_WORDS := W })

/-- The conflict test of the claim on `addValidLetters`: some index `i < L`
where both the accumulated and the incoming confirmed letter (padded to
length `L`) are non-empty and differ. -/
def hasCollision (cur nw : List Char) (L : Nat) : Bool :=
  (List.range L).any (fun i => collAt (padEnd cur L ' ') (padEnd nw L ' ') i)

/-! ### Properties of the first-occurrence deduplication -/

theorem mem_dedupFirstAux {α : Type} [DecidableEq α] (seen l : List α) (a : α) :
    a ∈ dedupFirstAux seen l ↔ a ∈ l ∧ a ∉ seen := by
  induction l generalizing seen with
  | nil => simp [dedupFirstAux]
  | cons x xs ih =>
    by_cases hx : x ∈ seen
    · rw [dedupFirstAux, if_pos hx, ih]
      simp only [List.mem_cons]
      constructor
      · rintro ⟨h1, h2⟩
        exact ⟨Or.inr h1, h2⟩
      · rintro ⟨h1 | h1, h2⟩
        · exact absurd (h1 ▸ hx) h2
        · exact ⟨h1, h2⟩
    · rw [dedupFirstAux, if_neg hx]
      simp only [List.mem_cons, ih]
      constructor
      · rintro (rfl | ⟨h1, h2⟩)
        · exact ⟨Or.inl rfl, hx⟩
        · exact ⟨Or.inr h1, fun hs => h2 (Or.inr hs)⟩
      · rintro ⟨h1 | h1, h2⟩
        · exact Or.inl h1
        · by_cases hax : a = x
          · exact Or.inl hax
          · exact Or.inr ⟨h1, by simp [List.mem_cons, hax, h2]⟩

theorem mem_dedupFirst {α : Type} [DecidableEq α] (l : List α) (a : α) :
    a ∈ dedupFirst l ↔ a ∈ l := by
  rw [dedupFirst, mem_dedupFirstAux]
  simp

theorem nodup_dedupFirstAux {α : Type} [DecidableEq α] (seen l : List α) :
    (dedupFirstAux seen l).Nodup := by
  induction l generalizing seen with
  | nil => exact List.nodup_nil
  | cons x xs ih =>
    by_cases hx : x ∈ seen
    · rw [dedupFirstAux, if_pos hx]
      exact ih seen
    · rw [dedupFirstAux, if_neg hx]
      refine List.nodup_cons.mpr ⟨?_, ih (x :: seen)⟩
      intro hmem
      exact ((mem_dedupFirstAux (x :: seen) xs x).mp hmem).2 (List.mem_cons_self x seen)

theorem nodup_dedupFirst {α : Type} [DecidableEq α] (l : List α) :
    (dedupFirst l).Nodup :=
  nodup_dedupFirstAux [] l

theorem dedupFirstAux_eq_self {α : Type} [DecidableEq α] (seen l : List α)
    (h1 : l.Nodup) (h2 : ∀ a ∈ l, a ∉ seen) : dedupFirstAux seen l = l := by
  induction l generalizing seen with
  | nil => rfl
  | cons x xs ih =>
    rw [dedupFirstAux, if_neg (h2 x (List.mem_cons_self x xs))]
    congr 1
    refine ih (x :: seen) (List.Nodup.of_cons h1) ?_
    intro a ha
    simp only [List.mem_cons]
    rintro (rfl | hs)
    · exact (List.nodup_cons.mp h1).1 ha
    · exact h2 a (List.mem_cons_of_mem x ha) hs

theorem dedupFirst_eq_self {α : Type} [DecidableEq α] (l : List α) (h : l.Nodup) :
    dedupFirst l = l :=
  dedupFirstAux_eq_self [] l h (by simp)

theorem dedupFirstAux_eq_nil {α : Type} [DecidableEq α] (seen l : List α)
    (h : ∀ a ∈ l, a ∈ seen) : dedupFirstAux seen l = [] := by
  induction l with
  | nil => rfl
  | cons x xs ih =>
    rw [dedupFirstAux, if_pos (h x (List.mem_cons_self x xs))]
    exact ih fun a ha => h a (List.mem_cons_of_mem x ha)

theorem dedupFirstAux_append_absorb {α : Type} [DecidableEq α] (seen l y : List α)
    (h : ∀ a ∈ y, a ∈ l ∨ a ∈ seen) : dedupFirstAux seen (l ++ y) = dedupFirstAux seen l := by
  induction l generalizing seen with
  | nil =>
    rw [List.nil_append]
    exact dedupFirstAux_eq_nil seen y fun a ha =>
      ((h a ha).resolve_left (List.not_mem_nil a))
  | cons x xs ih =>
    rw [List.cons_append, dedupFirstAux, dedupFirstAux]
    by_cases hx : x ∈ seen
    · rw [if_pos hx, if_pos hx]
      exact ih seen fun a ha =>
        ((h a ha).elim
          (fun hl => (List.mem_cons.mp hl).elim (fun he => Or.inr (he ▸ hx)) Or.inl)
          Or.inr)
    · rw [if_neg hx, if_neg hx]
      congr 1
      exact ih (x :: seen) fun a ha =>
        ((h a ha).elim
          (fun hl => (List.mem_cons.mp hl).elim (fun he => Or.inr (by simp [he])) Or.inl)
          (fun hs => Or.inr (List.mem_cons_of_mem x hs)))

theorem dedupFirst_append_absorb {α : Type} [DecidableEq α] (l y : List α)
    (h : ∀ a ∈ y, a ∈ l) : dedupFirst (l ++ y) = dedupFirst l :=
  dedupFirstAux_append_absorb [] l y fun a ha => Or.inl (h a ha)

/-! ### Properties of the ASCII lower-casing -/

theorem lowerChar_spec (c : Char) :
    lowerChar c = c ∨ ∃ p ∈ lowerMap, p.1 = c ∧ lowerChar c = p.2 := by
  unfold lowerChar
  cases h : lowerMap.find? (fun p => p.1 = c) with
  | none => left; simp [h]
  | some p =>
    right
    refine ⟨p, List.mem_of_find?_eq_some h, ?_, by simp [h]⟩
    have hfs := List.find?_some h
    simpa using hfs

theorem lowerMap_snd_fixed : ∀ p ∈ lowerMap, lowerChar p.2 = p.2 := by decide

theorem lowerMap_no_ws : ∀ p ∈ lowerMap, jsWhitespace p.1 = false ∧ jsWhitespace p.2 = false := by
  decide

theorem lowerChar_idem (c : Char) : lowerChar (lowerChar c) = lowerChar c := by
  rcases lowerChar_spec c with h | ⟨p, hp, _, h⟩
  · rw [h]
    exact h
  · rw [h]
    exact lowerMap_snd_fixed p hp

theorem jsWhitespace_lowerChar (c : Char) : jsWhitespace (lowerChar c) = jsWhitespace c := by
  rcases lowerChar_spec c with h | ⟨p, hp, hpc, h⟩
  · rw [h]
  · rw [h, ← hpc, (lowerMap_no_ws p hp).1, (lowerMap_no_ws p hp).2]

/-! ### Properties of `trimEnd` and `sanitizeInput` -/

theorem trimEnd_decomp (l : List Char) :
    l = trimEnd l ++ (l.reverse.takeWhile jsWhitespace).reverse ∧
      ∀ c ∈ (l.reverse.takeWhile jsWhitespace).reverse, jsWhitespace c = true := by
  constructor
  · calc l = l.reverse.reverse := (List.reverse_reverse l).symm
      _ = (l.reverse.takeWhile jsWhitespace ++ l.reverse.dropWhile jsWhitespace).reverse := by
          rw [List.takeWhile_append_dropWhile]
      _ = (l.reverse.dropWhile jsWhitespace).reverse ++
            (l.reverse.takeWhile jsWhitespace).reverse := List.reverse_append _ _
      _ = trimEnd l ++ (l.reverse.takeWhile jsWhitespace).reverse := rfl
  · intro c hc
    rw [List.mem_reverse] at hc
    exact List.mem_takeWhile_imp hc

theorem trimEnd_length_le (l : List Char) : (trimEnd l).length ≤ l.length := by
  conv_rhs => rw [(trimEnd_decomp l).1]
  rw [List.length_append]
  omega

theorem trimEnd_eq_self_of_nows (l : List Char) (h : ∀ c ∈ l, jsWhitespace c = false) :
    trimEnd l = l := by
  rcases hr : l.reverse with _ | ⟨x, xs⟩
  · have : l = [] := List.reverse_eq_nil_iff.mp hr
    subst this
    rfl
  · have hx : x ∈ l := by
      rw [← List.mem_reverse, hr]
      exact List.mem_cons_self x xs
    unfold trimEnd
    rw [hr, List.dropWhile_cons, if_neg (by simp [h x hx]), ← hr, List.reverse_reverse]

theorem dropWhile_idem {α : Type} (p : α → Bool) (l : List α) :
    (l.dropWhile p).dropWhile p = l.dropWhile p := by
  induction l with
  | nil => rfl
  | cons x xs ih =>
    rw [List.dropWhile_cons]
    by_cases h : p x = true
    · rw [if_pos h]
      exact ih
    · rw [if_neg h, List.dropWhile_cons, if_neg h]

theorem trimEnd_idem (l : List Char) : trimEnd (trimEnd l) = trimEnd l := by
  unfold trimEnd
  rw [List.reverse_reverse, dropWhile_idem]

theorem dropWhile_map_eq {α β : Type} (f : α → β) (p : β → Bool) (l : List α) :
    (l.map f).dropWhile p = (l.dropWhile fun a => p (f a)).map f := by
  induction l with
  | nil => rfl
  | cons x xs ih =>
    rw [List.map_cons, List.dropWhile_cons, List.dropWhile_cons]
    by_cases h : p (f x) = true
    · rw [if_pos h, if_pos h]
      exact ih
    · rw [if_neg h, if_neg h, List.map_cons]

theorem map_lowerChar_trimEnd (l : List Char) :
    (trimEnd l).map lowerChar = trimEnd (l.map lowerChar) := by
  unfold trimEnd
  rw [← List.map_reverse, dropWhile_map_eq]
  have : (fun a => jsWhitespace (lowerChar a)) = jsWhitespace := funext jsWhitespace_lowerChar
  rw [this, List.map_reverse]

theorem sanitize_idem (s : List Char) : sanitizeInput (sanitizeInput s) = sanitizeInput s := by
  unfold sanitizeInput
  rw [map_lowerChar_trimEnd, List.map_map]
  have : lowerChar ∘ lowerChar = lowerChar := funext lowerChar_idem
  rw [this, trimEnd_idem]

/-! ### Indexing lemmas for `padEnd` and `sanitizeInput` -/

theorem getD_mem_of_lt {α : Type} (l : List α) (i : Nat) (d : α) (h : i < l.length) :
    l.getD i d ∈ l := by
  rw [List.getD_eq_get?, List.get?_eq_get h]
  exact List.get_mem l i h

theorem getD_replicate_self {α : Type} (n i : Nat) (c : α) :
    (List.replicate n c).getD i c = c := by
  induction n generalizing i with
  | zero => rfl
  | succ m ih =>
    cases i with
    | zero => rfl
    | succ j => simpa [List.replicate_succ] using ih j

theorem getD_replicate_lt {α : Type} (n i : Nat) (c d : α) (h : i < n) :
    (List.replicate n c).getD i d = c := by
  induction n generalizing i with
  | zero => omega
  | succ m ih =>
    cases i with
    | zero => rfl
    | succ j => simpa [List.replicate_succ] using ih j (by omega)

theorem getD_padEnd_lt (s : List Char) (n : Nat) (c : Char) (i : Nat) (d : Char)
    (h : i < s.length) : (padEnd s n c).getD i d = s.getD i d :=
  List.getD_append s _ d i h

theorem getD_padEnd_ge (s : List Char) (n : Nat) (c : Char) (i : Nat)
    (h : s.length ≤ i) : (padEnd s n c).getD i c = c := by
  rw [padEnd, List.getD_append_right s _ c i h]
  exact getD_replicate_self _ _ _

theorem getD_map_lowerChar (v : List Char) (i : Nat) (h : i < v.length) :
    (v.map lowerChar).getD i ' ' = lowerChar (v.getD i ' ') := by
  rw [List.getD_eq_get?, List.getD_eq_get?, List.get?_map, List.get?_eq_get h]
  rfl

/-- The slot the merge loop reads at index `i < L` from the padded sanitised
confirmed string: the lower-cased input character when `i` is in range,
a space beyond the input's length (sanitisation can only turn whitespace,
which the hypothesis restricts to spaces, into padding). -/
theorem getD_padEnd_sanitize (v : List Char)
    (h : ∀ c ∈ v, jsWhitespace c = true → c = ' ') (L i : Nat) (hi : i < L) :
    (padEnd (sanitizeInput v) L ' ').getD i ' ' =
      if i < v.length then lowerChar (v.getD i ' ') else ' ' := by
  have hdec := (trimEnd_decomp (v.map lowerChar)).1
  have hws := (trimEnd_decomp (v.map lowerChar)).2
  have hkt : (trimEnd (v.map lowerChar)).length ≤ (v.map lowerChar).length :=
    trimEnd_length_le _
  have hlen : (v.map lowerChar).length = v.length := List.length_map v lowerChar
  show (padEnd (trimEnd (v.map lowerChar)) L ' ').getD i ' ' = _
  by_cases h1 : i < (trimEnd (v.map lowerChar)).length
  · rw [getD_padEnd_lt _ _ _ _ _ h1]
    have hiv : i < v.length := lt_of_lt_of_le h1 (hlen ▸ hkt)
    have h2 : (v.map lowerChar).getD i ' ' = (trimEnd (v.map lowerChar)).getD i ' ' := by
      conv_lhs => rw [hdec]
      rw [List.getD_append _ _ _ _ h1]
    rw [← h2, if_pos hiv]
    exact getD_map_lowerChar v i hiv
  · push_neg at h1
    rw [getD_padEnd_ge _ _ _ _ h1]
    by_cases h2 : i < v.length
    · rw [if_pos h2]
      have hit : i < (v.map lowerChar).length := hlen ▸ h2
      have helem : (v.map lowerChar).getD i ' ' =
          ((v.map lowerChar).reverse.takeWhile jsWhitespace).reverse.getD
            (i - (trimEnd (v.map lowerChar)).length) ' ' := by
        conv_lhs => rw [hdec]
        exact List.getD_append_right _ _ _ _ h1
      have hmem2 : (v.map lowerChar).getD i ' ' ∈
          ((v.map lowerChar).reverse.takeWhile jsWhitespace).reverse := by
        rw [helem]
        refine getD_mem_of_lt _ _ _ ?_
        have hlt := congrArg List.length hdec
        rw [List.length_append] at hlt
        omega
      have hwst := hws _ hmem2
      rw [getD_map_lowerChar v i h2, jsWhitespace_lowerChar] at hwst
      have hsp : v.getD i ' ' = ' ' := h _ (getD_mem_of_lt v i ' ' h2) hwst
      rw [hsp]
      rfl
    · rw [if_neg h2]

/-! ### The `addValidLetters` merge loop -/

theorem addValidGo_eq (cur nw : List Char) (L : Nat) (idxs : List Nat) (acc : List Char) :
    addValidGo cur nw L idxs acc =
      if idxs.any (fun i => collAt cur nw i) then List.replicate L '?'
      else acc ++ idxs.map (fun i => mergeChar (cur.getD i ' ') (nw.getD i ' ')) := by
  induction idxs generalizing acc with
  | nil => simp [addValidGo]
  | cons i rest ih =>
    rw [addValidGo]
    by_cases h : collAt cur nw i = true
    · rw [if_pos h]
      simp [h]
    · rw [if_neg h, ih]
      simp [h]

theorem mergeChar_cases (c n : Char) :
    (isEmptyC c = false ∧ mergeChar c n = c) ∨
      (isEmptyC c = true ∧ isEmptyC n = false ∧ mergeChar c n = n) ∨
      (isEmptyC c = true ∧ isEmptyC n = true ∧ mergeChar c n = ' ') := by
  unfold mergeChar
  by_cases hc : isEmptyC c = true
  · by_cases hn : isEmptyC n = true
    · right; right
      simp [hc, hn]
    · right; left
      simp [hc, hn, Bool.eq_false_iff.mpr hn]
  · left
    simp [Bool.eq_false_iff.mpr hc, hc]

theorem isEmptyC_mergeChar (c n : Char) (h : isEmptyC (mergeChar c n) = true) :
    mergeChar c n = ' ' := by
  rcases mergeChar_cases c n with ⟨h1, h2⟩ | ⟨h1, h2, h3⟩ | ⟨h1, h2, h3⟩
  · rw [h2] at h
    rw [h] at h1
    exact absurd h1 (by simp)
  · rw [h3] at h
    rw [h] at h2
    exact absurd h2 (by simp)
  · exact h3

/-! ### Field computations of the state-accumulator functions -/

@[simp] theorem addValidLetters_validLetters (s : Solver) (v : List Char) :
    (addValidLetters s v).validLetters =
      addValidGo (padEnd s.validLetters (getWordLength s) ' ')
        (padEnd v (getWordLength s) ' ') (getWordLength s)
        (List.range (getWordLength s)) [] := rfl

@[simp] theorem addValidLetters_notInPlaceLetters (s : Solver) (v : List Char) :
    (addValidLetters s v).notInPlaceLetters = s.notInPlaceLetters := rfl

@[simp] theorem addValidLetters_invalidLetters (s : Solver) (v : List Char) :
    (addValidLetters s v).invalidLetters = s.invalidLetters := rfl

@[simp] theorem addValidLetters_ALL_WORDS (s : Solver) (v : List Char) :
    (addValidLetters s v).ALL_WORDS = s.ALL_WORDS := rfl

@[simp] theorem addNotInPlaceLetters_validLetters (s : Solver) (m : List Char) :
    (addNotInPlaceLetters s m).validLetters = s.validLetters := by
  unfold addNotInPlaceLetters
  split <;> rfl

@[simp] theorem addNotInPlaceLetters_notInPlaceLetters (s : Solver) (m : List Char) :
    (addNotInPlaceLetters s m).notInPlaceLetters =
      if m = [] then s.notInPlaceLetters else dedupFirst (s.notInPlaceLetters ++ [m]) := by
  unfold addNotInPlaceLetters
  split <;> simp [*]

@[simp] theorem addNotInPlaceLetters_invalidLetters (s : Solver) (m : List Char) :
    (addNotInPlaceLetters s m).invalidLetters = s.invalidLetters := by
  unfold addNotInPlaceLetters
  split <;> rfl

@[simp] theorem addNotInPlaceLetters_ALL_WORDS (s : Solver) (m : List Char) :
    (addNotInPlaceLetters s m).ALL_WORDS = s.ALL_WORDS := by
  unfold addNotInPlaceLetters
  split <;> rfl

@[simp] theorem addInvalidLetters_validLetters (s : Solver) (a : List Char) :
    (addInvalidLetters s a).validLetters = s.validLetters := rfl

@[simp] theorem addInvalidLetters_notInPlaceLetters (s : Solver) (a : List Char) :
    (addInvalidLetters s a).notInPlaceLetters = s.notInPlaceLetters := rfl

@[simp] theorem addInvalidLetters_invalidLetters (s : Solver) (a : List Char) :
    (addInvalidLetters s a).invalidLetters = dedupFirst (s.invalidLetters ++ a) := rfl

@[simp] theorem addInvalidLetters_ALL_WORDS (s : Solver) (a : List Char) :
    (addInvalidLetters s a).ALL_WORDS = s.ALL_WORDS := rfl

@[simp] theorem initializeIndexes_validLetters (s : Solver) :
    (initializeIndexes s).validLetters = s.validLetters := rfl

@[simp] theorem initializeIndexes_notInPlaceLetters (s : Solver) :
    (initializeIndexes s).notInPlaceLetters = s.notInPlaceLetters := rfl

@[simp] theorem initializeIndexes_invalidLetters (s : Solver) :
    (initializeIndexes s).invalidLetters = s.invalidLetters := rfl

@[simp] theorem initializeIndexes_ALL_WORDS (s : Solver) :
    (initializeIndexes s).ALL_WORDS = s.ALL_WORDS := rfl

@[simp] theorem initializeIndexes_validIndexes (s : Solver) :
    (initializeIndexes s).validIndexes =
      (List.range (getWordLength s)).filter (fun i => !isEmptyO (s.validLetters.get? i)) := rfl

@[simp] theorem initializeIndexes_notCompletedIndexes (s : Solver) :
    (initializeIndexes s).notCompletedIndexes =
      (List.range (getWordLength s)).filter (fun i => isEmptyO (s.validLetters.get? i)) := rfl

@[simp] theorem getWordLength_eq (s : Solver) :
    getWordLength s = (s.ALL_WORDS.headD []).length := rfl

/-! ### Field computations of `solve` -/

@[simp] theorem solve_possibleWords (s : Solver) (p : SolveParams) :
    (solve s p).possibleWords = pipeline (initializeNextSolve s p) := rfl

@[simp] theorem solve_ALL_WORDS (s : Solver) (p : SolveParams) :
    (solve s p).ALL_WORDS = s.ALL_WORDS := by
  simp [solve, initializeNextSolve, sanitizeSolveParams]

@[simp] theorem solve_validLetters (s : Solver) (p : SolveParams) :
    (solve s p).validLetters =
      addValidGo (padEnd s.validLetters (getWordLength s) ' ')
        (padEnd (sanitizeInput p.validLetters) (getWordLength s) ' ')
        (getWordLength s) (List.range (getWordLength s)) [] := by
  simp [solve, initializeNextSolve, sanitizeSolveParams]

@[simp] theorem solve_notInPlaceLetters (s : Solver) (p : SolveParams) :
    (solve s p).notInPlaceLetters =
      if sanitizeInput p.notInPlaceLetters = [] then s.notInPlaceLetters
      else dedupFirst (s.notInPlaceLetters ++ [sanitizeInput p.notInPlaceLetters]) := by
  simp [solve, initializeNextSolve, sanitizeSolveParams]

@[simp] theorem solve_invalidLetters (s : Solver) (p : SolveParams) :
    (solve s p).invalidLetters =
      dedupFirst (s.invalidLetters ++ sanitizeInput p.invalidLetters) := by
  simp [solve, initializeNextSolve, sanitizeSolveParams]

theorem solve_validIndexes (s : Solver) (p : SolveParams) :
    (solve s p).validIndexes =
      (List.range (getWordLength s)).filter
        (fun i => !isEmptyO ((solve s p).validLetters.get? i)) := by
  simp [solve, initializeNextSolve, sanitizeSolveParams]

theorem solve_notCompletedIndexes (s : Solver) (p : SolveParams) :
    (solve s p).notCompletedIndexes =
      (List.range (getWordLength s)).filter
        (fun i => isEmptyO ((solve s p).validLetters.get? i)) := by
  simp [solve, initializeNextSolve, sanitizeSolveParams]

/-! ### The pipeline reads only the accumulated state -/

theorem pipeline_congr (s t : Solver)
    (h1 : s.validLetters = t.validLetters)
    (h2 : s.notInPlaceLetters = t.notInPlaceLetters)
    (h3 : s.invalidLetters = t.invalidLetters)
    (h4 : s.validIndexes = t.validIndexes)
    (h5 : s.notCompletedIndexes = t.notCompletedIndexes)
    (h6 : s.ALL_WORDS = t.ALL_WORDS) :
    pipeline s = pipeline t := by
  unfold pipeline filterWordsWithCorrectLetters removeWordsWithInvalidLetters
    removeWordsWithNotInPlaceIndexes removeInvalidNotInPlaceCombinations wordRemainder
  simp only [h1, h2, h3, h4, h5, h6]

theorem solve_possible_eq_compute (s : Solver) (p : SolveParams) :
    (solve s p).possibleWords =
      computeCandidates (solve s p).validLetters (solve s p).notInPlaceLetters
        (solve s p).invalidLetters s.ALL_WORDS := by
  rw [solve_possibleWords]
  unfold computeCandidates
  apply pipeline_congr <;>
    simp [solve, initializeNextSolve, sanitizeSolveParams]

/-! ### The pipeline on an empty word list -/

theorem foldl_filter_nil (R : List (List Char)) :
    R.foldl (fun ws r => ws.filter (fun w => keepForRecord w r)) ([] : List Word) = [] := by
  induction R with
  | nil => rfl
  | cons r rest ih => simpa using ih

theorem removeInvalidNotInPlaceCombinations_nil (s : Solver) :
    removeInvalidNotInPlaceCombinations s [] = [] :=
  foldl_filter_nil s.notInPlaceLetters

/-! ### Claim C9: concrete scenario -/

/-- C9: on a fresh engine over the dictionary `["crane","crate","trace","cabin"]`,
a single `solve` with confirmed letters `"cra__"`, empty misplaced string and
absent letters `"b"` returns exactly `["crane","crate"]`. -/
theorem C9_concrete_scenario :
    (solve
        (mkSolver [['c','r','a','n','e'], ['c','r','a','t','e'],
          ['t','r','a','c','e'], ['c','a','b','i','n']])
        { validLetters := ['c','r','a','_','_'], notInPlaceLetters := [],
          invalidLetters := ['b'] }).possibleWords =
      [['c','r','a','n','e'], ['c','r','a','t','e']] := by
  decide

/-! ### Claim C10: `reset` leaves the cached candidate list untouched -/

/-- C10: `reset` (with or without a new dictionary) clears the confirmed
letters, misplaced rounds, absent letters and derived indexes, and installs
the optional new dictionary, but leaves the cached `possibleWords` untouched,
so `getPossibleWords` right after a reset still returns the pre-reset
candidate list — and the full dictionary when `solve` was never called, since
the constructor caches exactly the dictionary. -/
theorem C10_reset_keeps_cached_candidates (s : Solver) (d : Option (List Word))
    (ws : List Word) :
    getPossibleWords (reset s d) = getPossibleWords s ∧
    (reset s d).validLetters = [] ∧
    (reset s d).notInPlaceLetters = [] ∧
    (reset s d).invalidLetters = [] ∧
    (reset s d).validIndexes = [] ∧
    (reset s d).notCompletedIndexes = [] ∧
    (reset s d).ALL_WORDS = d.getD s.ALL_WORDS ∧
    getPossibleWords (mkSolver ws) = ws :=
  ⟨rfl, rfl, rfl, rfl, rfl, rfl, rfl, rfl⟩

/-! ### Claim C4: pass 2 and the duplicate-letter exception -/

theorem mem_wordRemainderGo (v w : List Char) (j : Nat) (c : Char) :
    c ∈ wordRemainderGo v w j ↔
      ∃ k, k < w.length ∧ w.get? k = some c ∧ v.get? (j + k) ≠ some c := by
  induction w generalizing j with
  | nil => simp [wordRemainderGo]
  | cons x xs ih =>
    unfold wordRemainderGo
    by_cases h : (v.get? j == some x) = true
    · rw [if_pos h, ih]
      rw [beq_iff_eq] at h
      constructor
      · rintro ⟨k, hk, hw, hv⟩
        refine ⟨k + 1, by simpa using hk, by simpa using hw, ?_⟩
        rw [show j + (k + 1) = j + 1 + k by omega]
        exact hv
      · rintro ⟨k, hk, hw, hv⟩
        cases k with
        | zero =>
          exfalso
          apply hv
          rw [Nat.add_zero, h]
          simpa using hw
        | succ m =>
          refine ⟨m, by simpa using hk, by simpa using hw, ?_⟩
          rw [show j + 1 + m = j + (m + 1) by omega]
          exact hv
    · rw [if_neg h, List.mem_cons, ih]
      rw [beq_iff_eq] at h
      constructor
      · rintro (rfl | ⟨k, hk, hw, hv⟩)
        · exact ⟨0, by simp, by simp, by simpa using h⟩
        · refine ⟨k + 1, by simpa using hk, by simpa using hw, ?_⟩
          rw [show j + (k + 1) = j + 1 + k by omega]
          exact hv
      · rintro ⟨k, hk, hw, hv⟩
        cases k with
        | zero =>
          left
          simpa using hw.symm
        | succ m =>
          right
          refine ⟨m, by simpa using hk, by simpa using hw, ?_⟩
          rw [show j + 1 + m = j + (m + 1) by omega]
          exact hv

theorem mem_wordRemainder (s : Solver) (w : Word) (c : Char) :
    c ∈ wordRemainder s w ↔
      ∃ k, k < w.length ∧ w.get? k = some c ∧ s.validLetters.get? k ≠ some c := by
  unfold wordRemainder
  rw [mem_wordRemainderGo]
  simp

/-- C4: pass 2 keeps a word iff every accumulated absent letter either occurs
somewhere in some misplaced round record — the duplicate-letter exception,
which skips the absence check for that letter entirely — or does not occur in
the word at any position where the word's letter differs from the accumulated
confirmed letter at that position. -/
theorem C4_absent_letter_exception (s : Solver) (words : List Word) (w : Word) :
    w ∈ removeWordsWithInvalidLetters s words ↔
      w ∈ words ∧
        ∀ c ∈ s.invalidLetters,
          (∃ r ∈ s.notInPlaceLetters, c ∈ r) ∨
          ¬ ∃ k, k < w.length ∧ w.get? k = some c ∧ s.validLetters.get? k ≠ some c := by
  unfold removeWordsWithInvalidLetters
  rw [List.mem_filter]
  refine and_congr_right fun _ => ?_
  have hL : ∀ g : Char → Bool,
      ((!(s.invalidLetters.any g)) = true ↔ ∀ c ∈ s.invalidLetters, ¬ g c = true) := by
    intro g
    simp [List.any_eq_true]
  rw [hL]
  constructor
  · intro hall c hc
    have hnc := hall c hc
    by_cases hA : (s.notInPlaceLetters.any fun r => r.any fun x => x == c) = true
    · left
      rw [List.any_eq_true] at hA
      obtain ⟨r, hr, hx⟩ := hA
      rw [List.any_eq_true] at hx
      obtain ⟨x, hxr, hxc⟩ := hx
      rw [beq_iff_eq] at hxc
      exact ⟨r, hr, hxc ▸ hxr⟩
    · right
      rw [if_neg hA] at hnc
      rw [← mem_wordRemainder s w c]
      intro hmem
      apply hnc
      rw [List.any_eq_true]
      exact ⟨c, hmem, by simp⟩
  · intro hall c hc
    rcases hall c hc with ⟨r, hr, hcr⟩ | hev
    · have hA : (s.notInPlaceLetters.any fun r => r.any fun x => x == c) = true := by
        rw [List.any_eq_true]
        exact ⟨r, hr, by rw [List.any_eq_true]; exact ⟨c, hcr, by simp⟩⟩
      rw [if_pos hA]
      simp
    · by_cases hA : (s.notInPlaceLetters.any fun r => r.any fun x => x == c) = true
      · rw [if_pos hA]
        simp
      · rw [if_neg hA]
        intro hB
        apply hev
        rw [← mem_wordRemainder s w c]
        rw [List.any_eq_true] at hB
        obtain ⟨x, hxm, hxc⟩ := hB
        rw [beq_iff_eq] at hxc
        exact hxc ▸ hxm

/-! ### Claim C5: pass 4 per-record semantics -/

theorem existsOtherIndex_iff (w : Word) (c : Char) (j : Nat) :
    existsOtherIndex w c j = true ↔ ∃ i, i < w.length ∧ i ≠ j ∧ w.get? i = some c := by
  unfold existsOtherIndex
  rw [List.any_eq_true]
  constructor
  · rintro ⟨i, hi, hp⟩
    rw [List.mem_range] at hi
    rw [Bool.and_eq_true] at hp
    exact ⟨i, hi, by simpa using hp.1, by simpa using hp.2⟩
  · rintro ⟨i, hi, hij, hw⟩
    refine ⟨i, List.mem_range.mpr hi, ?_⟩
    rw [Bool.and_eq_true]
    exact ⟨by simpa using hij, by simpa using hw⟩

theorem keepGo_iff (w : Word) (r : List Char) (j : Nat) :
    keepGo w r j = true ↔
      ∀ k (c : Char), r.get? k = some c → isEmptyC c = false →
        w.get? (j + k) ≠ some c ∧ existsOtherIndex w c (j + k) = true := by
  induction r generalizing j with
  | nil => simp [keepGo]
  | cons c0 rest ih =>
    unfold keepGo
    by_cases h0 : isEmptyC c0 = true
    · rw [if_pos h0, ih]
      constructor
      · intro hall k c hk hc
        cases k with
        | zero =>
          exfalso
          have hcc : c0 = c := by simpa using hk
          rw [← hcc, h0] at hc
          exact absurd hc (by simp)
        | succ m =>
          have hm := hall m c (by simpa using hk) hc
          rw [show j + 1 + m = j + (m + 1) by omega] at hm
          exact hm
      · intro hall k c hk hc
        have hm := hall (k + 1) c (by simpa using hk) hc
        rw [show j + (k + 1) = j + 1 + k by omega] at hm
        exact hm
    · rw [if_neg h0]
      by_cases h1 : (w.get? j == some c0) = true
      · rw [if_pos h1]
        constructor
        · intro hfalse
          exact absurd hfalse (by simp)
        · intro hall
          exfalso
          have hm := hall 0 c0 (by simp) (by simpa using h0)
          rw [Nat.add_zero] at hm
          exact hm.1 (by simpa using h1)
      · rw [if_neg h1]
        by_cases h2 : existsOtherIndex w c0 j = true
        · rw [if_pos h2, ih]
          constructor
          · intro hall k c hk hc
            cases k with
            | zero =>
              have hcc : c0 = c := by simpa using hk
              subst hcc
              rw [Nat.add_zero]
              exact ⟨by simpa using h1, h2⟩
            | succ m =>
              have hm := hall m c (by simpa using hk) hc
              rw [show j + 1 + m = j + (m + 1) by omega] at hm
              exact hm
          · intro hall k c hk hc
            have hm := hall (k + 1) c (by simpa using hk) hc
            rw [show j + (k + 1) = j + 1 + k by omega] at hm
            exact hm
        · rw [if_neg h2]
          constructor
          · intro hfalse
            exact absurd hfalse (by simp)
          · intro hall
            exfalso
            have hm := hall 0 c0 (by simp) (by simpa using h0)
            rw [Nat.add_zero] at hm
            exact h2 hm.2

/-- C5: a word survives one misplaced-round record's pass-4 filter
(`keepForRecord`, the predicate `removeInvalidNotInPlaceCombinations` folds
over the surviving words once per record) iff, at every record position
holding a non-empty marker, the word's letter at that position differs from
the record's letter — applied unconditionally, settled indexes included —
and the record's letter occurs at some other position of the word. -/
theorem C5_pass4_record_semantics (r : List Char) (ws : List Word) (w : Word) :
    w ∈ ws.filter (fun word => keepForRecord word r) ↔
      w ∈ ws ∧
        ∀ j (c : Char), r.get? j = some c → isEmptyC c = false →
          w.get? j ≠ some c ∧ ∃ i, i < w.length ∧ i ≠ j ∧ w.get? i = some c := by
  rw [List.mem_filter]
  refine and_congr_right fun _ => ?_
  unfold keepForRecord
  rw [keepGo_iff]
  constructor
  · intro hall j c hj hc
    have hm := hall j c hj hc
    rw [Nat.zero_add] at hm
    exact ⟨hm.1, (existsOtherIndex_iff w c j).mp hm.2⟩
  · intro hall k c hk hc
    rw [Nat.zero_add]
    have hm := hall k c hk hc
    exact ⟨hm.1, (existsOtherIndex_iff w c k).mpr hm.2⟩

/-! ### Claim C6: pass 3 per-index misplaced exclusion -/

/-- C6: after index classification, pass 3 keeps a word (of the dictionary's
word length) iff no unsettled index — one whose accumulated confirmed letter
is an empty marker — carries, in some misplaced round record, the same letter
the word has at that index; equivalently, the word is rejected iff such an
index and record exist. -/
theorem C6_per_index_misplaced (s : Solver) (words : List Word) (w : Word)
    (hw : w.length = getWordLength s) :
    w ∈ removeWordsWithNotInPlaceIndexes (initializeIndexes s) words ↔
      w ∈ words ∧
        ¬ ∃ i, i < getWordLength s ∧ isEmptyO (s.validLetters.get? i) = true ∧
          ∃ r ∈ s.notInPlaceLetters, ∃ c : Char, r.get? i = some c ∧ w.get? i = some c := by
  unfold removeWordsWithNotInPlaceIndexes
  rw [List.mem_filter]
  refine and_congr_right fun _ => ?_
  simp only [initializeIndexes_notCompletedIndexes, initializeIndexes_notInPlaceLetters]
  rw [show ∀ b : Bool, ((!b) = true ↔ ¬ b = true) from fun b => by cases b <;> simp]
  apply not_congr
  rw [List.any_eq_true]
  constructor
  · rintro ⟨i, hi, hp⟩
    rw [List.mem_filter, List.mem_range] at hi
    rw [List.any_eq_true] at hp
    obtain ⟨r, hr, hrc⟩ := hp
    rw [beq_iff_eq] at hrc
    have hiw : i < w.length := hw ▸ hi.1
    refine ⟨i, hi.1, hi.2, r, hr, w.get ⟨i, hiw⟩, ?_, List.get?_eq_get hiw⟩
    rw [hrc, List.get?_eq_get hiw]
  · rintro ⟨i, hi, hemp, r, hr, c, hrc, hwc⟩
    refine ⟨i, ?_, ?_⟩
    · rw [List.mem_filter, List.mem_range]
      exact ⟨hi, hemp⟩
    · rw [List.any_eq_true]
      exact ⟨r, hr, by rw [beq_iff_eq, hrc, hwc]⟩

/-- Witness for C6 at a concrete state: the engine has ingested the misplaced
round `"xb"` over the dictionary `["ab"]`, index 1 is unsettled, and the word
`"ab"` carries the record's letter `'b'` at index 1, so pass 3 rejects it. -/
theorem C6_per_index_misplaced_witness :
    (['a','b'] : Word) ∉
      removeWordsWithNotInPlaceIndexes
        (initializeIndexes
          (solve (mkSolver [['a','b']])
            { validLetters := [], notInPlaceLetters := ['x','b'], invalidLetters := [] }))
        [['a','b']] := by
  intro hmem
  have h := C6_per_index_misplaced
    (solve (mkSolver [['a','b']])
      { validLetters := [], notInPlaceLetters := ['x','b'], invalidLetters := [] })
    [['a','b']] ['a','b'] (by decide)
  obtain ⟨-, hno⟩ := h.mp hmem
  exact hno ⟨1, by decide, by decide, ['x','b'], by decide, 'b', by decide, by decide⟩

/-! ### The merge loop: collision test, slot properties, idempotence -/

theorem collAt_iff (cur nw : List Char) (i : Nat) :
    collAt cur nw i = true ↔
      isEmptyC (cur.getD i ' ') = false ∧ isEmptyC (nw.getD i ' ') = false ∧
        cur.getD i ' ' ≠ nw.getD i ' ' := by
  unfold collAt
  simp [Bool.and_eq_true, bne_iff_ne, and_assoc]

theorem padEnd_of_le (s : List Char) (n : Nat) (c : Char) (h : n ≤ s.length) :
    padEnd s n c = s := by
  simp [padEnd, Nat.sub_eq_zero_of_le h]

theorem padEnd_nil (n : Nat) (c : Char) : padEnd [] n c = List.replicate n c := by
  simp [padEnd]

theorem getD_map_range {α : Type} (L i : Nat) (f : Nat → α) (d : α) (h : i < L) :
    ((List.range L).map f).getD i d = f i := by
  rw [List.getD_eq_get?, List.get?_map, List.get?_range h]
  rfl

theorem map_getD_range {α : Type} (l : List α) (d : α) :
    (List.range l.length).map (fun i => l.getD i d) = l := by
  apply List.ext_get
  · simp
  · intro n h1 h2
    have hn : n < l.length := by simpa using h2
    rw [List.get_map]
    have : (List.range l.length).get ⟨n, by simpa using h1⟩ = n := List.get_range n (by simpa using h1)
    rw [this, List.getD_eq_get?, List.get?_eq_get hn]
    rfl

theorem merge_result_props (cur nw : List Char) (L : Nat) :
    (addValidGo cur nw L (List.range L) []).length = L ∧
      ∀ c ∈ addValidGo cur nw L (List.range L) [], isEmptyC c = true → c = ' ' := by
  rw [addValidGo_eq]
  by_cases h : ((List.range L).any fun i => collAt cur nw i) = true
  · rw [if_pos h]
    refine ⟨List.length_replicate L '?', ?_⟩
    intro c hc hce
    have : c = '?' := List.eq_of_mem_replicate hc
    rw [this] at hce
    exact absurd hce (by decide)
  · rw [if_neg h, List.nil_append]
    refine ⟨by simp, ?_⟩
    intro c hc hce
    rw [List.mem_map] at hc
    obtain ⟨i, _, hi⟩ := hc
    rw [← hi] at hce ⊢
    exact isEmptyC_mergeChar _ _ hce

theorem merge_idem (cur nw : List Char) (L : Nat) :
    addValidGo (padEnd (addValidGo cur nw L (List.range L) []) L ' ') nw L
        (List.range L) [] =
      addValidGo cur nw L (List.range L) [] := by
  by_cases h : ((List.range L).any fun i => collAt cur nw i) = true
  · -- first merge was poisoned
    have hm : addValidGo cur nw L (List.range L) [] = List.replicate L '?' := by
      rw [addValidGo_eq, if_pos h]
    rw [hm, padEnd_of_le _ _ _ (by simp)]
    rw [addValidGo_eq]
    by_cases h2 : ((List.range L).any fun i => collAt (List.replicate L '?') nw i) = true
    · rw [if_pos h2]
    · rw [if_neg h2, List.nil_append]
      rw [List.eq_replicate]
      refine ⟨by simp, ?_⟩
      intro b hb
      rw [List.mem_map] at hb
      obtain ⟨i, hi, hfi⟩ := hb
      rw [List.mem_range] at hi
      rw [← hfi, getD_replicate_lt L i '?' ' ' hi]
      rfl
  · -- first merge succeeded slot by slot
    have hm : addValidGo cur nw L (List.range L) [] =
        (List.range L).map fun i => mergeChar (cur.getD i ' ') (nw.getD i ' ') := by
      rw [addValidGo_eq, if_neg h, List.nil_append]
    rw [hm]
    have hno : ∀ i ∈ List.range L, ¬ collAt cur nw i = true := by
      intro i hi hcoll
      exact h (List.any_eq_true.mpr ⟨i, hi, hcoll⟩)
    have hlen : ((List.range L).map fun i =>
        mergeChar (cur.getD i ' ') (nw.getD i ' ')).length = L := by simp
    rw [padEnd_of_le _ _ _ (le_of_eq hlen.symm)]
    have hget : ∀ i, i < L →
        (((List.range L).map fun i => mergeChar (cur.getD i ' ') (nw.getD i ' ')).getD i ' ')
          = mergeChar (cur.getD i ' ') (nw.getD i ' ') := by
      intro i hi
      exact getD_map_range L i _ ' ' hi
    rw [addValidGo_eq, if_neg ?hcoll]
    case hcoll =>
      intro hany
      rw [List.any_eq_true] at hany
      obtain ⟨i, hi, hci⟩ := hany
      have hiL : i < L := List.mem_range.mp hi
      rw [collAt_iff, hget i hiL] at hci
      obtain ⟨hc1, hc2, hc3⟩ := hci
      have horig := hno i hi
      rw [collAt_iff] at horig
      rcases mergeChar_cases (cur.getD i ' ') (nw.getD i ' ') with
        ⟨ha, hb⟩ | ⟨ha, hb2, hb⟩ | ⟨ha, hb2, hb⟩
      · rw [hb] at hc1 hc3
        exact horig ⟨hc1, hc2, hc3⟩
      · rw [hb] at hc3
        exact hc3 rfl
      · rw [hb] at hc1
        exact absurd hc1 (by decide)
    rw [List.nil_append]
    apply List.map_congr_left
    intro i hi
    have hiL : i < L := List.mem_range.mp hi
    rw [hget i hiL]
    rcases mergeChar_cases (cur.getD i ' ') (nw.getD i ' ') with
      ⟨ha, hb⟩ | ⟨ha, hb2, hb⟩ | ⟨ha, hb2, hb⟩
    · conv_lhs => rw [hb]
    · have hnn : mergeChar (nw.getD i ' ') (nw.getD i ' ') = nw.getD i ' ' := by
        rcases mergeChar_cases (nw.getD i ' ') (nw.getD i ' ') with
          ⟨_, hr⟩ | ⟨_, _, hr⟩ | ⟨h1, _, _⟩
        · exact hr
        · exact hr
        · rw [h1] at hb2
          exact absurd hb2 (by simp)
      conv_lhs => rw [hb]
      rw [hnn]
      exact hb.symm
    · have hsn : mergeChar ' ' (nw.getD i ' ') = ' ' := by
        rcases mergeChar_cases ' ' (nw.getD i ' ') with
          ⟨h1, _⟩ | ⟨_, h2, _⟩ | ⟨_, _, hr⟩
        · exact absurd h1 (by decide)
        · rw [hb2] at h2
          exact absurd h2 (by simp)
        · exact hr
      conv_lhs => rw [hb]
      rw [hsn]
      exact hb.symm

theorem merge_with_spaces (m : List Char) (L : Nat) (hlen : m.length = L)
    (hsl : ∀ c ∈ m, isEmptyC c = true → c = ' ') :
    addValidGo (padEnd m L ' ') (padEnd [] L ' ') L (List.range L) [] = m := by
  rw [padEnd_of_le _ _ _ (le_of_eq hlen.symm), padEnd_nil]
  have hsp : ∀ i : Nat, (List.replicate L ' ').getD i ' ' = ' ' := fun i =>
    getD_replicate_self L i ' '
  rw [addValidGo_eq, if_neg ?hcoll]
  case hcoll =>
    intro hany
    rw [List.any_eq_true] at hany
    obtain ⟨i, _, hci⟩ := hany
    rw [collAt_iff, hsp i] at hci
    exact absurd hci.2.1 (by decide)
  rw [List.nil_append]
  have : ∀ i ∈ List.range L, mergeChar (m.getD i ' ') ((List.replicate L ' ').getD i ' ')
      = m.getD i ' ' := by
    intro i hi
    rw [hsp i]
    rcases mergeChar_cases (m.getD i ' ') ' ' with ⟨_, hb⟩ | ⟨_, hb2, _⟩ | ⟨ha, _, hb⟩
    · exact hb
    · exact absurd hb2 (by decide)
    · rw [hb]
      symm
      exact hsl _ (getD_mem_of_lt m i ' ' (hlen ▸ List.mem_range.mp hi)) ha
  rw [List.map_congr_left this]
  conv_rhs => rw [← map_getD_range m ' ']
  rw [hlen]

/-! ### Fields of `initializeNextSolve` agree with those of `solve` -/

theorem initializeNextSolve_validLetters (s : Solver) (p : SolveParams) :
    (initializeNextSolve s p).validLetters = (solve s p).validLetters := rfl

theorem initializeNextSolve_notInPlaceLetters (s : Solver) (p : SolveParams) :
    (initializeNextSolve s p).notInPlaceLetters = (solve s p).notInPlaceLetters := rfl

theorem initializeNextSolve_invalidLetters (s : Solver) (p : SolveParams) :
    (initializeNextSolve s p).invalidLetters = (solve s p).invalidLetters := rfl

theorem initializeNextSolve_validIndexes (s : Solver) (p : SolveParams) :
    (initializeNextSolve s p).validIndexes = (solve s p).validIndexes := rfl

theorem initializeNextSolve_notCompletedIndexes (s : Solver) (p : SolveParams) :
    (initializeNextSolve s p).notCompletedIndexes = (solve s p).notCompletedIndexes := rfl

theorem initializeNextSolve_ALL_WORDS (s : Solver) (p : SolveParams) :
    (initializeNextSolve s p).ALL_WORDS = (solve s p).ALL_WORDS := rfl

/-- Two `solve` results with identical accumulated fields have identical
candidate lists: the pipeline reads nothing else. -/
theorem solve_possible_congr (s t : Solver) (p q : SolveParams)
    (h1 : (solve s p).validLetters = (solve t q).validLetters)
    (h2 : (solve s p).notInPlaceLetters = (solve t q).notInPlaceLetters)
    (h3 : (solve s p).invalidLetters = (solve t q).invalidLetters)
    (h4 : (solve s p).validIndexes = (solve t q).validIndexes)
    (h5 : (solve s p).notCompletedIndexes = (solve t q).notCompletedIndexes)
    (h6 : (solve s p).ALL_WORDS = (solve t q).ALL_WORDS) :
    (solve s p).possibleWords = (solve t q).possibleWords := by
  rw [solve_possibleWords, solve_possibleWords]
  apply pipeline_congr <;>
    simp only [initializeNextSolve_validLetters, initializeNextSolve_notInPlaceLetters,
      initializeNextSolve_invalidLetters, initializeNextSolve_validIndexes,
      initializeNextSolve_notCompletedIndexes, initializeNextSolve_ALL_WORDS,
      h1, h2, h3, h4, h5, h6]

/-! ### Claim C7: idempotent re-ingestion -/

/-- C7: calling `solve` twice in a row with the exact same feedback leaves
the whole engine — accumulated confirmed letters, misplaced rounds, absent
letters, derived indexes, and the cached candidate list — exactly as a single
call does; in particular an identical misplaced-round record is appended only
once. -/
theorem C7_idempotent_reingestion (s : Solver) (p : SolveParams)
    (_hW : s.ALL_WORDS ≠ []) :
    solve (solve s p) p = solve s p := by
  have hA : (solve s p).ALL_WORDS = s.ALL_WORDS := solve_ALL_WORDS s p
  have hLen : getWordLength (solve s p) = getWordLength s := by
    rw [getWordLength_eq, getWordLength_eq, hA]
  have hv : (solve (solve s p) p).validLetters = (solve s p).validLetters := by
    rw [solve_validLetters (solve s p) p, hLen, solve_validLetters s p]
    exact merge_idem _ _ _
  have hn : (solve (solve s p) p).notInPlaceLetters = (solve s p).notInPlaceLetters := by
    by_cases hm : sanitizeInput p.notInPlaceLetters = []
    · simp only [solve_notInPlaceLetters, if_pos hm]
    · simp only [solve_notInPlaceLetters, if_neg hm]
      rw [dedupFirst_append_absorb _ _ ?habs]
      case habs =>
        intro a ha
        rw [List.mem_singleton] at ha
        rw [ha, mem_dedupFirst]
        exact List.mem_append_right _ (List.mem_singleton.mpr rfl)
      exact dedupFirst_eq_self _ (nodup_dedupFirst _)
  have hi2 : (solve (solve s p) p).invalidLetters = (solve s p).invalidLetters := by
    simp only [solve_invalidLetters]
    rw [dedupFirst_append_absorb _ _
      (fun a ha => (mem_dedupFirst _ _).mpr (List.mem_append_right _ ha))]
    exact dedupFirst_eq_self _ (nodup_dedupFirst _)
  have hvi : (solve (solve s p) p).validIndexes = (solve s p).validIndexes := by
    rw [solve_validIndexes (solve s p) p, solve_validIndexes s p, hLen, hv]
  have hnc : (solve (solve s p) p).notCompletedIndexes = (solve s p).notCompletedIndexes := by
    rw [solve_notCompletedIndexes (solve s p) p, solve_notCompletedIndexes s p, hLen, hv]
  have hpw : (solve (solve s p) p).possibleWords = (solve s p).possibleWords :=
    solve_possible_congr (solve s p) s p p hv hn hi2 hvi hnc (solve_ALL_WORDS (solve s p) p)
  exact Solver.ext hv hn hi2 hvi hnc hpw (solve_ALL_WORDS (solve s p) p)

/-- Witness for C7 on a concrete engine and feedback. -/
theorem C7_idempotent_reingestion_witness :
    (mkSolver [['a','b'], ['c','b']]).ALL_WORDS ≠ [] ∧
      solve (solve (mkSolver [['a','b'], ['c','b']])
          { validLetters := ['a','_'], notInPlaceLetters := ['x','b'],
            invalidLetters := ['z'] })
          { validLetters := ['a','_'], notInPlaceLetters := ['x','b'],
            invalidLetters := ['z'] } =
        solve (mkSolver [['a','b'], ['c','b']])
          { validLetters := ['a','_'], notInPlaceLetters := ['x','b'],
            invalidLetters := ['z'] } :=
  ⟨by decide, C7_idempotent_reingestion _ _ (by decide)⟩

/-! ### Claim C8: an all-empty-feedback `solve` is an identity -/

/-- C8: after any `solve`, a further `solve` whose three feedback strings are
all empty leaves the accumulated state, the derived indexes and the cached
candidate list unchanged — in particular a unique remaining candidate stays
the unique candidate under such re-solves. -/
theorem C8_empty_feedback_identity (s : Solver) (p : SolveParams)
    (_hW : s.ALL_WORDS ≠ []) :
    solve (solve s p)
        { validLetters := [], notInPlaceLetters := [], invalidLetters := [] } =
      solve s p := by
  have hA : (solve s p).ALL_WORDS = s.ALL_WORDS := solve_ALL_WORDS s p
  have hLen : getWordLength (solve s p) = getWordLength s := by
    rw [getWordLength_eq, getWordLength_eq, hA]
  have hs0 : sanitizeInput ([] : List Char) = [] := rfl
  have hv : (solve (solve s p)
      { validLetters := [], notInPlaceLetters := [], invalidLetters := [] }).validLetters =
      (solve s p).validLetters := by
    rw [solve_validLetters (solve s p) _, hLen]
    show addValidGo (padEnd (solve s p).validLetters (getWordLength s) ' ')
      (padEnd (sanitizeInput []) (getWordLength s) ' ') (getWordLength s)
      (List.range (getWordLength s)) [] = _
    rw [hs0]
    obtain ⟨hl, hsl⟩ := merge_result_props (padEnd s.validLetters (getWordLength s) ' ')
      (padEnd (sanitizeInput p.validLetters) (getWordLength s) ' ') (getWordLength s)
    refine merge_with_spaces _ _ ?_ ?_
    · rw [solve_validLetters s p]
      exact hl
    · rw [solve_validLetters s p]
      exact hsl
  have hn : (solve (solve s p)
      { validLetters := [], notInPlaceLetters := [], invalidLetters := [] }).notInPlaceLetters =
      (solve s p).notInPlaceLetters := by
    rw [solve_notInPlaceLetters (solve s p) _]
    rw [if_pos hs0]
  have hi2 : (solve (solve s p)
      { validLetters := [], notInPlaceLetters := [], invalidLetters := [] }).invalidLetters =
      (solve s p).invalidLetters := by
    rw [solve_invalidLetters (solve s p) _, hs0, List.append_nil, solve_invalidLetters s p]
    exact dedupFirst_eq_self _ (nodup_dedupFirst _)
  have hvi : (solve (solve s p)
      { validLetters := [], notInPlaceLetters := [], invalidLetters := [] }).validIndexes =
      (solve s p).validIndexes := by
    rw [solve_validIndexes (solve s p) _, solve_validIndexes s p, hLen, hv]
  have hnc : (solve (solve s p)
      { validLetters := [], notInPlaceLetters := [], invalidLetters := [] }).notCompletedIndexes =
      (solve s p).notCompletedIndexes := by
    rw [solve_notCompletedIndexes (solve s p) _, solve_notCompletedIndexes s p, hLen, hv]
  have hpw : (solve (solve s p)
      { validLetters := [], notInPlaceLetters := [], invalidLetters := [] }).possibleWords =
      (solve s p).possibleWords :=
    solve_possible_congr (solve s p) s _ p hv hn hi2 hvi hnc (solve_ALL_WORDS (solve s p) _)
  exact Solver.ext hv hn hi2 hvi hnc hpw (solve_ALL_WORDS (solve s p) _)

/-- Witness for C8 on a concrete engine: after one informative `solve`, the
all-empty re-solve changes nothing. -/
theorem C8_empty_feedback_identity_witness :
    (mkSolver [['a','b'], ['c','b']]).ALL_WORDS ≠ [] ∧
      solve (solve (mkSolver [['a','b'], ['c','b']])
          { validLetters := ['a','_'], notInPlaceLetters := [], invalidLetters := ['z'] })
          { validLetters := [], notInPlaceLetters := [], invalidLetters := [] } =
        solve (mkSolver [['a','b'], ['c','b']])
          { validLetters := ['a','_'], notInPlaceLetters := [], invalidLetters := ['z'] } :=
  ⟨by decide, C8_empty_feedback_identity _ _ (by decide)⟩

/-! ### Claim C1: poison propagation -/

theorem get?_replicate_lt {α : Type} (n i : Nat) (c : α) (h : i < n) :
    (List.replicate n c).get? i = some c := by
  rw [List.get?_eq_get (by simpa using h)]
  simp

/-- Merging any incoming confirmed string into the poisoned all-`'?'`
accumulated string yields the poisoned string again: a new collision
re-poisons, and without one every slot keeps its non-empty `'?'`. -/
theorem addValidGo_poison (nw : List Char) (L : Nat) :
    addValidGo (List.replicate L '?') nw L (List.range L) [] = List.replicate L '?' := by
  rw [addValidGo_eq]
  by_cases h2 : ((List.range L).any fun i => collAt (List.replicate L '?') nw i) = true
  · rw [if_pos h2]
  · rw [if_neg h2, List.nil_append, List.eq_replicate]
    refine ⟨by simp, ?_⟩
    intro b hb
    rw [List.mem_map] at hb
    obtain ⟨i, hi, hfi⟩ := hb
    rw [List.mem_range] at hi
    rw [← hfi, getD_replicate_lt L i '?' ' ' hi]
    rfl

/-- C1: an incoming confirmed-letter string that conflicts with the
accumulated confirmed letters at some index — both sides non-empty and
different, under padding to the word length `L` — replaces the whole
confirmed-letter string by `L` copies of the sentinel `'?'`, and, provided no
dictionary word contains `'?'`, this solve and every further solve with
arbitrary feedback return the empty candidate list (`reset` is the only way
out, as it clears the confirmed letters, `C10_reset_keeps_cached_candidates`'s
subject). -/
theorem C1_poison_propagation (s : Solver) (p : SolveParams)
    (hW : ∀ w ∈ s.ALL_WORDS, ¬ '?' ∈ w)
    (hc : hasCollision s.validLetters (sanitizeInput p.validLetters)
      (getWordLength s) = true) :
    (solve s p).validLetters = List.replicate (getWordLength s) '?' ∧
      ∀ fs : List SolveParams, (solveSeq (solve s p) fs).possibleWords = [] := by
  have hL : 0 < getWordLength s := by
    unfold hasCollision at hc
    rw [List.any_eq_true] at hc
    obtain ⟨i, hi, _⟩ := hc
    have := List.mem_range.mp hi
    omega
  have hv1 : (solve s p).validLetters = List.replicate (getWordLength s) '?' := by
    have hc2 : ((List.range (getWordLength s)).any fun i =>
        collAt (padEnd s.validLetters (getWordLength s) ' ')
          (padEnd (sanitizeInput p.validLetters) (getWordLength s) ' ') i) = true := hc
    rw [solve_validLetters s p, addValidGo_eq, if_pos hc2]
  have key2 : ∀ (t : Solver) (q : SolveParams), t.ALL_WORDS = s.ALL_WORDS →
      (solve t q).validLetters = List.replicate (getWordLength s) '?' →
      (solve t q).possibleWords = [] := by
    intro t q h1 h2
    have hLt : getWordLength t = getWordLength s := by
      rw [getWordLength_eq, getWordLength_eq, h1]
    have hfe : filterWordsWithCorrectLetters (initializeNextSolve t q)
        (initializeNextSolve t q).ALL_WORDS = [] := by
      unfold filterWordsWithCorrectLetters
      apply List.filter_eq_nil.mpr
      intro w hw
      rw [initializeNextSolve_ALL_WORDS, solve_ALL_WORDS, h1] at hw
      intro hall
      rw [List.all_eq_true] at hall
      have h0m : (0 : Nat) ∈ (initializeNextSolve t q).validIndexes := by
        rw [initializeNextSolve_validIndexes, solve_validIndexes]
        rw [List.mem_filter, List.mem_range]
        refine ⟨by omega, ?_⟩
        rw [h2, get?_replicate_lt _ _ _ hL]
        rfl
      have h0 := hall 0 h0m
      rw [initializeNextSolve_validLetters, h2, get?_replicate_lt _ _ _ hL] at h0
      rw [beq_iff_eq] at h0
      exact hW w hw (List.get?_mem h0)
    rw [solve_possibleWords]
    unfold pipeline
    rw [hfe]
    exact removeInvalidNotInPlaceCombinations_nil _
  have key : ∀ (t : Solver) (q : SolveParams), t.ALL_WORDS = s.ALL_WORDS →
      t.validLetters = List.replicate (getWordLength s) '?' →
      (solve t q).ALL_WORDS = s.ALL_WORDS ∧
        (solve t q).validLetters = List.replicate (getWordLength s) '?' ∧
        (solve t q).possibleWords = [] := by
    intro t q h1 h2
    have hLt : getWordLength t = getWordLength s := by
      rw [getWordLength_eq, getWordLength_eq, h1]
    have hv2 : (solve t q).validLetters = List.replicate (getWordLength s) '?' := by
      rw [solve_validLetters t q, hLt, h2, padEnd_of_le _ _ _ (by simp)]
      exact addValidGo_poison _ _
    exact ⟨by rw [solve_ALL_WORDS, h1], hv2, key2 t q h1 hv2⟩
  refine ⟨hv1, ?_⟩
  have hseq : ∀ (fs : List SolveParams) (t : Solver), t.ALL_WORDS = s.ALL_WORDS →
      t.validLetters = List.replicate (getWordLength s) '?' → t.possibleWords = [] →
      (solveSeq t fs).possibleWords = [] := by
    intro fs
    induction fs with
    | nil =>
      intro t _ _ h3
      exact h3
    | cons q rest ih =>
      intro t h1 h2 h3
      obtain ⟨k1, k2, k3⟩ := key t q h1 h2
      exact ih (solve t q) k1 k2 k3
  intro fs
  exact hseq fs (solve s p) (solve_ALL_WORDS s p) hv1 (key2 s p rfl hv1)

/-- Witness for C1: over the dictionary `["ax","ay"]`, confirming `"ax"` and
then `"ay"` collides at index 1; the confirmed letters become `"??"` and the
candidate list is empty from then on, also after a further solve. -/
theorem C1_poison_propagation_witness :
    (∀ w ∈ (solve (mkSolver [['a','x'], ['a','y']])
        { validLetters := ['a','x'], notInPlaceLetters := [],
          invalidLetters := [] }).ALL_WORDS, ¬ '?' ∈ w) ∧
    hasCollision
        (solve (mkSolver [['a','x'], ['a','y']])
          { validLetters := ['a','x'], notInPlaceLetters := [],
            invalidLetters := [] }).validLetters
        (sanitizeInput ['a','y'])
        (getWordLength (solve (mkSolver [['a','x'], ['a','y']])
          { validLetters := ['a','x'], notInPlaceLetters := [],
            invalidLetters := [] })) = true ∧
    (solve (solve (mkSolver [['a','x'], ['a','y']])
        { validLetters := ['a','x'], notInPlaceLetters := [], invalidLetters := [] })
        { validLetters := ['a','y'], notInPlaceLetters := [],
          invalidLetters := [] }).validLetters = List.replicate 2 '?' ∧
    (solveSeq
        (solve (solve (mkSolver [['a','x'], ['a','y']])
          { validLetters := ['a','x'], notInPlaceLetters := [], invalidLetters := [] })
          { validLetters := ['a','y'], notInPlaceLetters := [], invalidLetters := [] })
        [{ validLetters := [], notInPlaceLetters := ['x','y'],
           invalidLetters := ['z'] }]).possibleWords = [] := by
  refine ⟨by decide, by decide, ?_, ?_⟩
  · exact (C1_poison_propagation _
      { validLetters := ['a','y'], notInPlaceLetters := [], invalidLetters := [] }
      (by decide) (by decide)).1
  · exact (C1_poison_propagation _
      { validLetters := ['a','y'], notInPlaceLetters := [], invalidLetters := [] }
      (by decide) (by decide)).2 _

/-! ### Claim C3: over-length feedback and truncation -/

/-- C3 counterexample: over the dictionary `["ab","cd"]` (word length 2), the
over-length absent string `"xbd"` is consumed in full — its third character
`'d'` rejects `"cd"` — so the candidate list differs from the one under the
same feedback truncated to the first `L` characters (`"xb"`). -/
theorem C3_counterexample :
    ((solve (mkSolver [['a','b'], ['c','d']])
        { validLetters := [], notInPlaceLetters := [],
          invalidLetters := ['x','b','d'] }).possibleWords ≠
      (solve (mkSolver [['a','b'], ['c','d']])
        { validLetters := [], notInPlaceLetters := [],
          invalidLetters := ['x','b'] }).possibleWords) ∧
    (['x','b','d'] : List Char).take
        (getWordLength (mkSolver [['a','b'], ['c','d']])) = ['x','b'] ∧
    getWordLength (mkSolver [['a','b'], ['c','d']]) <
      (['x','b','d'] : List Char).length := by
  exact ⟨by decide, by decide, by decide⟩

theorem any_congr {α : Type} (l : List α) (f g : α → Bool) (h : ∀ a ∈ l, f a = g a) :
    l.any f = l.any g := by
  induction l with
  | nil => rfl
  | cons a t ih =>
    rw [List.any_cons, List.any_cons, h a (List.mem_cons_self a t),
      ih fun b hb => h b (List.mem_cons_of_mem a hb)]

/-- The merge loop reads the incoming string only through its padded slots at
indexes below `L`. -/
theorem addValidGo_congr_nw (cur nw1 nw2 : List Char) (L : Nat)
    (h : ∀ i, i < L → nw1.getD i ' ' = nw2.getD i ' ') :
    addValidGo cur nw1 L (List.range L) [] = addValidGo cur nw2 L (List.range L) [] := by
  rw [addValidGo_eq, addValidGo_eq]
  have hcoll : ∀ i ∈ List.range L, collAt cur nw1 i = collAt cur nw2 i := by
    intro i hi
    unfold collAt
    rw [h i (List.mem_range.mp hi)]
  rw [any_congr _ _ _ hcoll]
  by_cases hany : ((List.range L).any fun i => collAt cur nw2 i) = true
  · rw [if_pos hany, if_pos hany]
  · rw [if_neg hany, if_neg hany]
    congr 1
    apply List.map_congr_left
    intro i hi
    rw [h i (List.mem_range.mp hi)]

/-- C3 amended: no error is raised (the engine is total), and the implicit
truncation holds for the confirmed-letter string — with its whitespace
restricted to the space marker, truncating it to its first `L` characters
changes neither the resulting state nor the candidate list.  The absent
string and the pass-4 scan of a misplaced record, by contrast, consume
characters beyond index `L` (see the counterexample), so the claim's "each
string" fails. -/
theorem C3_truncation_confirmed_only (s : Solver) (p : SolveParams)
    (hws : ∀ c ∈ p.validLetters, jsWhitespace c = true → c = ' ') :
    solve s p = solve s { p with validLetters := p.validLetters.take (getWordLength s) } := by
  have hws2 : ∀ c ∈ p.validLetters.take (getWordLength s), jsWhitespace c = true → c = ' ' :=
    fun c hc => hws c (List.mem_of_mem_take hc)
  have hv : (solve s p).validLetters =
      (solve s { p with validLetters := p.validLetters.take (getWordLength s) }).validLetters := by
    rw [solve_validLetters, solve_validLetters]
    apply addValidGo_congr_nw
    intro i hi
    rw [getD_padEnd_sanitize p.validLetters hws _ i hi]
    rw [show ({ p with validLetters := p.validLetters.take (getWordLength s) } :
      SolveParams).validLetters = p.validLetters.take (getWordLength s) from rfl]
    rw [getD_padEnd_sanitize _ hws2 _ i hi]
    by_cases hiv : i < p.validLetters.length
    · rw [if_pos hiv, if_pos (by rw [List.length_take]; omega)]
      congr 1
      rw [List.getD_eq_get?, List.getD_eq_get?, List.get?_take hi]
    · rw [if_neg hiv, if_neg (by rw [List.length_take]; omega)]
  have hn : (solve s p).notInPlaceLetters =
      (solve s { p with validLetters := p.validLetters.take (getWordLength s) }).notInPlaceLetters := by
    rw [solve_notInPlaceLetters, solve_notInPlaceLetters]
  have hi2 : (solve s p).invalidLetters =
      (solve s { p with validLetters := p.validLetters.take (getWordLength s) }).invalidLetters := by
    rw [solve_invalidLetters, solve_invalidLetters]
  have hvi : (solve s p).validIndexes =
      (solve s { p with validLetters := p.validLetters.take (getWordLength s) }).validIndexes := by
    rw [solve_validIndexes, solve_validIndexes, hv]
  have hnc : (solve s p).notCompletedIndexes =
      (solve s { p with validLetters := p.validLetters.take (getWordLength s) }).notCompletedIndexes := by
    rw [solve_notCompletedIndexes, solve_notCompletedIndexes, hv]
  have hpw : (solve s p).possibleWords =
      (solve s { p with validLetters := p.validLetters.take (getWordLength s) }).possibleWords :=
    solve_possible_congr s s p _ hv hn hi2 hvi hnc (by rw [solve_ALL_WORDS, solve_ALL_WORDS])
  exact Solver.ext hv hn hi2 hvi hnc hpw (by rw [solve_ALL_WORDS, solve_ALL_WORDS])

/-- Witness for C3's amended statement: a 6-character confirmed string over a
5-letter dictionary merges exactly as its 5-character truncation. -/
theorem C3_truncation_confirmed_only_witness :
    (∀ c ∈ (['c','r','a','x','y','z'] : List Char), jsWhitespace c = true → c = ' ') ∧
      solve (mkSolver [['c','r','a','n','e'], ['c','r','a','t','e']])
          { validLetters := ['c','r','a','x','y','z'], notInPlaceLetters := [],
            invalidLetters := ['b'] } =
        solve (mkSolver [['c','r','a','n','e'], ['c','r','a','t','e']])
          { validLetters :=
              (['c','r','a','x','y','z'] : List Char).take
                (getWordLength (mkSolver [['c','r','a','n','e'], ['c','r','a','t','e']])),
            notInPlaceLetters := [], invalidLetters := ['b'] } :=
  ⟨by decide, C3_truncation_confirmed_only _ _ (by decide)⟩

/-! ### Claim C2: export/restore round trip -/

/-- C2 counterexample: a tab smuggled into an over-length confirmed string
becomes a settled (non-empty) slot `'\t'`; `getState` exports it, but
`restoreTo` re-sanitises and `trimEnd` strips the now-trailing tab, so the
restored engine loses that constraint and its candidate list differs. -/
theorem C2_counterexample :
    (restoreTo (mkSolver [['a','b','c'], ['a','b','d']])
        (getState (solve (mkSolver [['a','b','c'], ['a','b','d']])
          { validLetters := ['a','b','\t','x'], notInPlaceLetters := [],
            invalidLetters := [] }))).possibleWords ≠
      (solve (mkSolver [['a','b','c'], ['a','b','d']])
        { validLetters := ['a','b','\t','x'], notInPlaceLetters := [],
          invalidLetters := [] }).possibleWords := by
  decide

/-- Feedback whose confirmed string uses no whitespace beyond the space
marker and whose absent string contains no whitespace at all.  (The stored
misplaced records need no restriction: they are kept sanitised, and
sanitisation is idempotent.) -/
def GoodParams (p : SolveParams) : Prop :=
  (∀ c ∈ p.validLetters, jsWhitespace c = true → c = ' ') ∧
    (∀ c ∈ p.invalidLetters, jsWhitespace c = false)

/-- Engine states reached from the constructor over dictionary `W` by `solve`
calls whose feedback satisfies `GoodParams`. -/
inductive ReachableGood (W : List Word) : Solver → Prop
  | base : ReachableGood W (mkSolver W)
  | step (s : Solver) (p : SolveParams) : ReachableGood W s → GoodParams p →
      ReachableGood W (solve s p)

/-- A slot of the accumulated confirmed letters: its only empty marker form
is the space, it is lower-case invariant, and its only whitespace form is the
space. -/
def GoodSlot (c : Char) : Prop :=
  (isEmptyC c = true → c = ' ') ∧ lowerChar c = c ∧ (jsWhitespace c = true → c = ' ')

/-- A stored misplaced round record: non-empty and sanitisation-invariant. -/
def GoodRecord (r : List Char) : Prop := r ≠ [] ∧ sanitizeInput r = r

/-- The accumulated absent letters: deduplicated, lower-case invariant and
whitespace-free. -/
def GoodInvalid (a : List Char) : Prop :=
  a.Nodup ∧ ∀ c ∈ a, lowerChar c = c ∧ jsWhitespace c = false

/-- The replay invariant of every reachable state: the dictionary is fixed,
records and absent letters are in sanitised normal form, the cached candidate
list is the pipeline of the accumulated state, and the confirmed letters are
either still untouched (together with the rest of the state) or a full-length
string of good slots. -/
def Inv (W : List Word) (s : Solver) : Prop :=
  s.ALL_WORDS = W ∧
  (∀ r ∈ s.notInPlaceLetters, GoodRecord r) ∧
  s.notInPlaceLetters.Nodup ∧
  GoodInvalid s.invalidLetters ∧
  s.possibleWords = computeCandidates s.validLetters s.notInPlaceLetters s.invalidLetters W ∧
  ((s.validLetters = [] ∧ s.notInPlaceLetters = [] ∧ s.invalidLetters = []) ∨
    (s.validLetters.length = getWordLength s ∧ ∀ c ∈ s.validLetters, GoodSlot c))

theorem goodSlot_space : GoodSlot ' ' :=
  ⟨fun _ => rfl, by decide, fun _ => rfl⟩

theorem mem_trimEnd (l : List Char) (c : Char) (h : c ∈ trimEnd l) : c ∈ l := by
  rw [(trimEnd_decomp l).1]
  exact List.mem_append_left _ h

theorem mem_sanitize (x : List Char) (c : Char) (h : c ∈ sanitizeInput x) :
    ∃ d ∈ x, c = lowerChar d := by
  unfold sanitizeInput at h
  have hm := mem_trimEnd _ _ h
  rw [List.mem_map] at hm
  obtain ⟨d, hd, hdc⟩ := hm
  exact ⟨d, hd, hdc.symm⟩

theorem any_const_false {α : Type} (l : List α) : (l.any fun _ => false) = false := by
  induction l with
  | nil => rfl
  | cons a t ih =>
    rw [List.any_cons, ih]
    rfl

/-- With all-unsettled confirmed letters, no misplaced rounds and no absent
letters, all four passes keep every dictionary word. -/
theorem computeCandidates_empty (v : List Char) (W : List Word)
    (hv : ∀ i : Nat, isEmptyO (v.get? i) = true) :
    computeCandidates v [] [] W = W := by
  unfold computeCandidates pipeline
  have hVI : (initializeIndexes
      { validLetters := v, notInPlaceLetters := [], invalidLetters := [],
        validIndexes := [], notCompletedIndexes := [], possibleWords := [],
        ALL_WORDS := W } : Solver).validIndexes = [] := by
    rw [initializeIndexes_validIndexes]
    apply List.filter_eq_nil.mpr
    intro i _
    rw [hv i]
    simp
  have h1 : filterWordsWithCorrectLetters (initializeIndexes
      { validLetters := v, notInPlaceLetters := [], invalidLetters := [],
        validIndexes := [], notCompletedIndexes := [], possibleWords := [],
        ALL_WORDS := W }) W = W := by
    unfold filterWordsWithCorrectLetters
    apply List.filter_eq_self.mpr
    intro w _
    rw [hVI]
    rfl
  have h2 : ∀ u : List Word, removeWordsWithInvalidLetters (initializeIndexes
      { validLetters := v, notInPlaceLetters := [], invalidLetters := [],
        validIndexes := [], notCompletedIndexes := [], possibleWords := [],
        ALL_WORDS := W }) u = u := by
    intro u
    unfold removeWordsWithInvalidLetters
    apply List.filter_eq_self.mpr
    intro w _
    rfl
  have h3 : ∀ u : List Word, removeWordsWithNotInPlaceIndexes (initializeIndexes
      { validLetters := v, notInPlaceLetters := [], invalidLetters := [],
        validIndexes := [], notCompletedIndexes := [], possibleWords := [],
        ALL_WORDS := W }) u = u := by
    intro u
    unfold removeWordsWithNotInPlaceIndexes
    apply List.filter_eq_self.mpr
    intro w _
    show (!((initializeIndexes
      { validLetters := v, notInPlaceLetters := [], invalidLetters := [],
        validIndexes := [], notCompletedIndexes := [], possibleWords := [],
        ALL_WORDS := W } : Solver).notCompletedIndexes.any fun _ => false)) = true
    rw [any_const_false]
    rfl
  have h4 : ∀ u : List Word, removeInvalidNotInPlaceCombinations (initializeIndexes
      { validLetters := v, notInPlaceLetters := [], invalidLetters := [],
        validIndexes := [], notCompletedIndexes := [], possibleWords := [],
        ALL_WORDS := W }) u = u := fun u => rfl
  have hAW : (initializeIndexes
      { validLetters := v, notInPlaceLetters := [], invalidLetters := [],
        validIndexes := [], notCompletedIndexes := [], possibleWords := [],
        ALL_WORDS := W } : Solver).ALL_WORDS = W := rfl
  rw [hAW, h1, h2, h3, h4]

theorem Inv_base (W : List Word) : Inv W (mkSolver W) := by
  refine ⟨rfl, ?_, List.nodup_nil, ⟨List.nodup_nil, ?_⟩, ?_, Or.inl ⟨rfl, rfl, rfl⟩⟩
  · intro r hr
    exact absurd hr (List.not_mem_nil r)
  · intro c hc
    exact absurd hc (List.not_mem_nil c)
  · show W = computeCandidates [] [] [] W
    exact (computeCandidates_empty [] W fun _ => rfl).symm

theorem goodSlot_padEnd (v : List Char) (L : Nat) (hv : ∀ c ∈ v, GoodSlot c) :
    ∀ c ∈ padEnd v L ' ', GoodSlot c := by
  intro c hc
  rw [padEnd, List.mem_append] at hc
  rcases hc with hc | hc
  · exact hv c hc
  · rw [List.eq_of_mem_replicate hc]
    exact goodSlot_space

theorem nu_good (p : SolveParams) (hp : GoodParams p) (L : Nat) :
    ∀ c ∈ padEnd (sanitizeInput p.validLetters) L ' ',
      lowerChar c = c ∧ (jsWhitespace c = true → c = ' ') := by
  intro c hc
  rw [padEnd, List.mem_append] at hc
  rcases hc with hc | hc
  · obtain ⟨d, hd, hcd⟩ := mem_sanitize _ _ hc
    subst hcd
    refine ⟨lowerChar_idem d, ?_⟩
    intro hw
    rw [jsWhitespace_lowerChar] at hw
    rw [hp.1 d hd hw]
    decide
  · rw [List.eq_of_mem_replicate hc]
    exact ⟨by decide, fun _ => rfl⟩

theorem goodSlot_merge (c n : Char) (hc : GoodSlot c)
    (hn : lowerChar n = n ∧ (jsWhitespace n = true → n = ' ')) :
    GoodSlot (mergeChar c n) := by
  rcases mergeChar_cases c n with ⟨_, hr⟩ | ⟨_, hne, hr⟩ | ⟨_, _, hr⟩
  · rw [hr]
    exact hc
  · rw [hr]
    refine ⟨?_, hn.1, hn.2⟩
    intro he
    rw [he] at hne
    exact absurd hne (by simp)
  · rw [hr]
    exact goodSlot_space

theorem solve_validLetters_good (s : Solver) (p : SolveParams)
    (hs : ∀ c ∈ s.validLetters, GoodSlot c) (hp : GoodParams p) :
    (solve s p).validLetters.length = getWordLength s ∧
      ∀ c ∈ (solve s p).validLetters, GoodSlot c := by
  rw [solve_validLetters]
  refine ⟨(merge_result_props _ _ _).1, ?_⟩
  intro c hc
  rw [addValidGo_eq] at hc
  by_cases h : ((List.range (getWordLength s)).any fun i =>
      collAt (padEnd s.validLetters (getWordLength s) ' ')
        (padEnd (sanitizeInput p.validLetters) (getWordLength s) ' ') i) = true
  · rw [if_pos h] at hc
    rw [List.eq_of_mem_replicate hc]
    exact ⟨fun hq => absurd hq (by decide), by decide, fun hq => absurd hq (by decide)⟩
  · rw [if_neg h, List.nil_append, List.mem_map] at hc
    obtain ⟨i, hi, hie⟩ := hc
    have hiL : i < getWordLength s := List.mem_range.mp hi
    rw [← hie]
    apply goodSlot_merge
    · apply goodSlot_padEnd _ _ hs
      apply getD_mem_of_lt
      rw [padEnd, List.length_append, List.length_replicate]
      omega
    · apply nu_good p hp
      apply getD_mem_of_lt
      rw [padEnd, List.length_append, List.length_replicate]
      omega

theorem Inv_step (W : List Word) (s : Solver) (p : SolveParams)
    (hInv : Inv W s) (hp : GoodParams p) : Inv W (solve s p) := by
  obtain ⟨hA, hRec, hRnd, hInvd, _hPoss, hBr⟩ := hInv
  have hslots : ∀ c ∈ s.validLetters, GoodSlot c := by
    rcases hBr with ⟨h1, _, _⟩ | ⟨_, h2⟩
    · rw [h1]
      intro c hc
      exact absurd hc (List.not_mem_nil c)
    · exact h2
  refine ⟨?_, ?_, ?_, ?_, ?_, Or.inr ?_⟩
  · rw [solve_ALL_WORDS]
    exact hA
  · intro r hr
    rw [solve_notInPlaceLetters] at hr
    by_cases hm : sanitizeInput p.notInPlaceLetters = []
    · rw [if_pos hm] at hr
      exact hRec r hr
    · rw [if_neg hm] at hr
      rw [mem_dedupFirst, List.mem_append] at hr
      rcases hr with hr | hr
      · exact hRec r hr
      · rw [List.mem_singleton] at hr
        subst hr
        exact ⟨hm, sanitize_idem _⟩
  · rw [solve_notInPlaceLetters]
    by_cases hm : sanitizeInput p.notInPlaceLetters = []
    · rw [if_pos hm]
      exact hRnd
    · rw [if_neg hm]
      exact nodup_dedupFirst _
  · rw [solve_invalidLetters]
    refine ⟨nodup_dedupFirst _, ?_⟩
    intro c hc
    rw [mem_dedupFirst, List.mem_append] at hc
    rcases hc with hc | hc
    · exact hInvd.2 c hc
    · obtain ⟨d, hd, hcd⟩ := mem_sanitize _ _ hc
      subst hcd
      refine ⟨lowerChar_idem d, ?_⟩
      rw [jsWhitespace_lowerChar]
      exact hp.2 d hd
  · rw [solve_possible_eq_compute, hA]
  · have hg := solve_validLetters_good s p hslots hp
    have hLe : getWordLength (solve s p) = getWordLength s := by
      rw [getWordLength_eq, solve_ALL_WORDS, getWordLength_eq]
    rw [hLe]
    exact hg

theorem addValidGo_spaces (L : Nat) :
    addValidGo (List.replicate L ' ') (List.replicate L ' ') L (List.range L) [] =
      List.replicate L ' ' := by
  rw [addValidGo_eq, if_neg ?hc]
  case hc =>
    intro hany
    rw [List.any_eq_true] at hany
    obtain ⟨i, _, hci⟩ := hany
    rw [collAt_iff, getD_replicate_self] at hci
    exact absurd hci.1 (by decide)
  rw [List.nil_append, List.eq_replicate]
  refine ⟨by simp, ?_⟩
  intro b hb
  rw [List.mem_map] at hb
  obtain ⟨i, _, hfi⟩ := hb
  rw [← hfi, getD_replicate_self]
  rfl

/-- Merging a stored confirmed string into a freshly reset engine restores it
exactly: its slots are lower-case invariant, their whitespace is only the
space, and their empty markers are only the space. -/
theorem merge_into_empty (v : List Char) (L : Nat) (hlen : v.length = L)
    (hslots : ∀ c ∈ v, GoodSlot c) :
    addValidGo (padEnd [] L ' ') (padEnd (sanitizeInput v) L ' ') L (List.range L) [] = v := by
  have hws : ∀ c ∈ v, jsWhitespace c = true → c = ' ' := fun c hc => (hslots c hc).2.2
  have hnw : ∀ i, i < L → (padEnd (sanitizeInput v) L ' ').getD i ' ' = v.getD i ' ' := by
    intro i hi
    rw [getD_padEnd_sanitize v hws L i hi, if_pos (by omega)]
    exact (hslots _ (getD_mem_of_lt v i ' ' (by omega))).2.1
  rw [padEnd_nil, addValidGo_eq, if_neg ?hc]
  case hc =>
    intro hany
    rw [List.any_eq_true] at hany
    obtain ⟨i, _, hci⟩ := hany
    rw [collAt_iff, getD_replicate_self] at hci
    exact absurd hci.1 (by decide)
  rw [List.nil_append]
  have hmap : ∀ i ∈ List.range L,
      mergeChar ((List.replicate L ' ').getD i ' ')
        ((padEnd (sanitizeInput v) L ' ').getD i ' ') = v.getD i ' ' := by
    intro i hi
    have hiL := List.mem_range.mp hi
    rw [getD_replicate_self, hnw i hiL]
    rcases mergeChar_cases ' ' (v.getD i ' ') with ⟨h1, _⟩ | ⟨_, _, hr⟩ | ⟨_, h2, hr⟩
    · exact absurd h1 (by decide)
    · exact hr
    · rw [hr]
      symm
      exact (hslots _ (getD_mem_of_lt v i ' ' (by omega))).1 h2
  rw [List.map_congr_left hmap]
  conv_rhs => rw [← map_getD_range v ' ']
  rw [hlen]

theorem sanitize_invalid_fixed (a : List Char)
    (ha : ∀ c ∈ a, lowerChar c = c ∧ jsWhitespace c = false) :
    sanitizeInput a = a := by
  unfold sanitizeInput
  have h1 : a.map lowerChar = a := by
    calc a.map lowerChar = a.map (fun c => c) :=
          List.map_congr_left fun c hc => (ha c hc).1
      _ = a := by simp
  rw [h1]
  exact trimEnd_eq_self_of_nows a fun c hc => (ha c hc).2

theorem isEmptyO_replicate_space (L i : Nat) :
    isEmptyO ((List.replicate L ' ').get? i) = true := by
  by_cases h : i < L
  · rw [get?_replicate_lt _ _ _ h]
    rfl
  · rw [List.get?_eq_none.mpr (by rw [List.length_replicate]; omega)]
    rfl

/-- Replaying the stored misplaced round records one `solve` at a time, over
an engine already carrying the stored confirmed and absent letters, appends
exactly the stored record list and ends with the candidate list of the full
accumulated state. -/
theorem replay_records (W : List Word) (v a : List Char)
    (hvlen : v.length = (W.headD []).length)
    (hvslots : ∀ c ∈ v, isEmptyC c = true → c = ' ')
    (hand : a.Nodup) :
    ∀ (suf pre : List (List Char)), (∀ r ∈ suf, GoodRecord r) →
      (pre ++ suf).Nodup →
      ∀ t : Solver, t.validLetters = v → t.notInPlaceLetters = pre →
        t.invalidLetters = a → t.ALL_WORDS = W →
        t.possibleWords = computeCandidates v pre a W →
        (suf.foldl (fun acc r => solve acc
            { validLetters := [], notInPlaceLetters := r,
              invalidLetters := [] }) t).possibleWords
          = computeCandidates v (pre ++ suf) a W := by
  intro suf
  induction suf with
  | nil =>
    intro pre _ _ t _ _ _ _ h5
    rw [List.foldl_nil, List.append_nil]
    exact h5
  | cons r rest ih =>
    intro pre hgood hnd t h1 h2 h3 h4 h5
    rw [List.foldl_cons]
    have hLt : getWordLength t = (W.headD []).length := by
      rw [getWordLength_eq, h4]
    obtain ⟨hrne, hrsan⟩ := hgood r (List.mem_cons_self r rest)
    have ht1 : (solve t
        { validLetters := [], notInPlaceLetters := r,
          invalidLetters := [] }).validLetters = v := by
      rw [solve_validLetters, hLt, h1]
      exact merge_with_spaces v _ hvlen hvslots
    have ht2 : (solve t
        { validLetters := [], notInPlaceLetters := r,
          invalidLetters := [] }).notInPlaceLetters = pre ++ [r] := by
      rw [solve_notInPlaceLetters]
      rw [show sanitizeInput
          ({ validLetters := [], notInPlaceLetters := r,
             invalidLetters := [] } : SolveParams).notInPlaceLetters = r from hrsan]
      rw [if_neg hrne, h2]
      apply dedupFirst_eq_self
      have hsub : List.Sublist (pre ++ [r]) (pre ++ r :: rest) :=
        List.Sublist.append_left (by simpa using List.sublist_append_left [r] rest) pre
      exact List.Nodup.sublist hsub hnd
    have ht3 : (solve t
        { validLetters := [], notInPlaceLetters := r,
          invalidLetters := [] }).invalidLetters = a := by
      rw [solve_invalidLetters]
      rw [show sanitizeInput
          ({ validLetters := [], notInPlaceLetters := r,
             invalidLetters := [] } : SolveParams).invalidLetters = [] from rfl]
      rw [List.append_nil, h3]
      exact dedupFirst_eq_self a hand
    have ht4 : (solve t
        { validLetters := [], notInPlaceLetters := r,
          invalidLetters := [] }).ALL_WORDS = W := by
      rw [solve_ALL_WORDS]
      exact h4
    have ht5 : (solve t
        { validLetters := [], notInPlaceLetters := r,
          invalidLetters := [] }).possibleWords = computeCandidates v (pre ++ [r]) a W := by
      rw [solve_possible_eq_compute, ht1, ht2, ht3, h4]
    have happ : (pre ++ [r]) ++ rest = pre ++ r :: rest := by simp
    have hres := ih (pre ++ [r])
      (fun x hx => hgood x (List.mem_cons_of_mem r hx))
      (by rw [happ]; exact hnd) _ ht1 ht2 ht3 ht4 ht5
    rw [hres, happ]

theorem restore_of_Inv (W : List Word) (e s : Solver) (hInv : Inv W s)
    (he : e.ALL_WORDS = W) :
    (restoreTo e (getState s)).possibleWords = s.possibleWords := by
  obtain ⟨hA, hRec, hRnd, hInvd, hPoss, hBr⟩ := hInv
  have hres : (reset e none).ALL_WORDS = W := he
  have hLr : getWordLength (reset e none) = (W.headD []).length := by
    rw [getWordLength_eq, hres]
  show (s.notInPlaceLetters.foldl (fun acc r => solve acc
      { validLetters := [], notInPlaceLetters := r, invalidLetters := [] })
      (solve (reset e none)
        { validLetters := s.validLetters, notInPlaceLetters := [],
          invalidLetters := s.invalidLetters })).possibleWords = s.possibleWords
  rcases hBr with ⟨hv0, hR0, ha0⟩ | ⟨hvlen, hvslots⟩
  · -- fresh engine: nothing was ever ingested
    rw [hv0, hR0, ha0, List.foldl_nil]
    rw [hPoss, hv0, hR0, ha0]
    have hv1 : (solve (reset e none)
        { validLetters := [], notInPlaceLetters := [],
          invalidLetters := [] }).validLetters =
        List.replicate ((W.headD []).length) ' ' := by
      rw [solve_validLetters, hLr]
      show addValidGo (padEnd [] ((W.headD []).length) ' ')
        (padEnd (sanitizeInput []) ((W.headD []).length) ' ')
        ((W.headD []).length) (List.range ((W.headD []).length)) [] = _
      rw [show sanitizeInput ([] : List Char) = [] from rfl, padEnd_nil]
      exact addValidGo_spaces _
    have hn1 : (solve (reset e none)
        { validLetters := [], notInPlaceLetters := [],
          invalidLetters := [] }).notInPlaceLetters = [] := by
      rw [solve_notInPlaceLetters,
        if_pos (show sanitizeInput ([] : List Char) = [] from rfl)]
      rfl
    have ha1 : (solve (reset e none)
        { validLetters := [], notInPlaceLetters := [],
          invalidLetters := [] }).invalidLetters = [] := rfl
    rw [solve_possible_eq_compute, hv1, hn1, ha1, hres]
    rw [computeCandidates_empty (List.replicate ((W.headD []).length) ' ') W
      (isEmptyO_replicate_space _)]
    rw [computeCandidates_empty [] W (fun _ => rfl)]
  · -- an informative solve has happened: replay restores the exact state
    have hLs : getWordLength s = (W.headD []).length := by
      rw [getWordLength_eq, hA]
    have hvlen2 : s.validLetters.length = (W.headD []).length := by
      rw [hvlen, hLs]
    have hv1 : (solve (reset e none)
        { validLetters := s.validLetters, notInPlaceLetters := [],
          invalidLetters := s.invalidLetters }).validLetters = s.validLetters := by
      rw [solve_validLetters, hLr]
      exact merge_into_empty s.validLetters _ hvlen2 hvslots
    have hn1 : (solve (reset e none)
        { validLetters := s.validLetters, notInPlaceLetters := [],
          invalidLetters := s.invalidLetters }).notInPlaceLetters = [] := by
      rw [solve_notInPlaceLetters,
        if_pos (show sanitizeInput ([] : List Char) = [] from rfl)]
      rfl
    have ha1 : (solve (reset e none)
        { validLetters := s.validLetters, notInPlaceLetters := [],
          invalidLetters := s.invalidLetters }).invalidLetters = s.invalidLetters := by
      rw [solve_invalidLetters]
      rw [show (reset e none).invalidLetters = [] from rfl, List.nil_append]
      rw [show sanitizeInput
          ({ validLetters := s.validLetters, notInPlaceLetters := [],
             invalidLetters := s.invalidLetters } :
            SolveParams).invalidLetters = sanitizeInput s.invalidLetters from rfl]
      rw [sanitize_invalid_fixed s.invalidLetters hInvd.2]
      exact dedupFirst_eq_self _ hInvd.1
    have hA1 : (solve (reset e none)
        { validLetters := s.validLetters, notInPlaceLetters := [],
          invalidLetters := s.invalidLetters }).ALL_WORDS = W := by
      rw [solve_ALL_WORDS]
      exact hres
    have hp1 : (solve (reset e none)
        { validLetters := s.validLetters, notInPlaceLetters := [],
          invalidLetters := s.invalidLetters }).possibleWords =
        computeCandidates s.validLetters [] s.invalidLetters W := by
      rw [solve_possible_eq_compute, hv1, hn1, ha1, hres]
    have hrep := replay_records W s.validLetters s.invalidLetters hvlen2
      (fun c hc => (hvslots c hc).1) hInvd.1 s.notInPlaceLetters [] hRec
      (by rw [List.nil_append]; exact hRnd) _ hv1 hn1 ha1 hA1 hp1
    rw [hrep, List.nil_append, hPoss]

/-- C2 amended: the export/restore round trip does hold once the re-sanitising
replay cannot lose information — for every state reached by `solve` calls
whose confirmed strings use no whitespace beyond the space marker and whose
absent strings contain no whitespace (`GoodParams`), `restoreTo (getState s)`
on any engine over the same (non-empty) dictionary reproduces the candidate
list exactly.  Without that restriction the claim is false: see
`C2_counterexample`, where a tab inside a confirmed string is silently
dropped on restore. -/
theorem C2_export_restore_roundtrip (W : List Word) (s e : Solver)
    (_hW : W ≠ []) (hr : ReachableGood W s) (he : e.ALL_WORDS = W) :
    (restoreTo e (getState s)).possibleWords = s.possibleWords := by
  have hInv : Inv W s := by
    induction hr with
    | base => exact Inv_base W
    | step s p _ hp ih => exact Inv_step W s p ih hp
  exact restore_of_Inv W e s hInv he

/-- Witness for C2's amended statement on a concrete whitespace-free history. -/
theorem C2_export_restore_roundtrip_witness :
    ([['a','b'], ['c','b']] : List Word) ≠ [] ∧
    GoodParams
      { validLetters := ['a','_'], notInPlaceLetters := ['x','b'],
        invalidLetters := ['z'] } ∧
    (restoreTo (mkSolver [['a','b'], ['c','b']])
        (getState (solve (mkSolver [['a','b'], ['c','b']])
          { validLetters := ['a','_'], notInPlaceLetters := ['x','b'],
            invalidLetters := ['z'] }))).possibleWords =
      (solve (mkSolver [['a','b'], ['c','b']])
        { validLetters := ['a','_'], notInPlaceLetters := ['x','b'],
          invalidLetters := ['z'] }).possibleWords := by
  refine ⟨by decide, ⟨by decide, by decide⟩, ?_⟩
  exact C2_export_restore_roundtrip [['a','b'], ['c','b']] _ _ (by decide)
    (ReachableGood.step _ _ ReachableGood.base ⟨by decide, by decide⟩) rfl

end WordleSolver
